/-
  Verification of the rag-service retrieval pipeline.

  Shallow embedding of the pure parts of the Python modules
    app/services/rag/rrf_fusion.py
    app/services/rag/context_builder.py
    app/services/rag/cross_encoder_reranker.py
    app/services/rag/bm25_retriever.py
    app/services/rag/reranker.py
    app/services/rag/retriever.py
    app/services/rag/pipeline_advanced.py
  into Lean.  Python str values are modelled as lists of characters
  (the built-in Lean String API does not reduce well in the kernel),
  Python floats are modelled as exact rationals, Python dicts are
  modelled as insertion-ordered association lists, and the stable
  Python sort is modelled by insertion sort (any two stable sorts with
  the same comparator agree).  External effects (the embedding model,
  the vector store, the BM25 library scorer) enter the models as
  parameters, exactly at the call boundary where the Python code
  receives their results.
-/
import Mathlib

set_option maxRecDepth 100000

/-- Python strings are modelled as lists of characters. -/
abbrev Str := List Char

/-- Coerce a Lean string literal into the model representation. -/
def str (s : String) : Str := s.data

namespace PyStr

/-- Python str.lower, restricted to ASCII (all repository inputs are ASCII). -/
def lower (s : Str) : Str := s.map Char.toLower

/-- The whitespace characters recognised by Python str.strip / str.split. -/
def pyIsSpace (c : Char) : Bool :=
  c = ' ' || c = '\t' || c = '\n' || c = '\r' || c = '\x0b' || c = '\x0c'

/-- Python str.strip with no argument: drop leading whitespace. -/
def lstrip (s : Str) : Str := s.dropWhile pyIsSpace

/-- Python str.strip with no argument: drop trailing whitespace. -/
def rstrip (s : Str) : Str := (s.reverse.dropWhile pyIsSpace).reverse

/-- Python str.strip with no argument. -/
def strip (s : Str) : Str := rstrip (lstrip s)

/-- Python str.split with a one-character separator: keeps empty fields,
    and the split of the empty string is one empty field. -/
def splitOnChar (sep : Char) : Str → List Str
  | [] => [[]]
  | c :: cs =>
    if c = sep then [] :: splitOnChar sep cs
    else
      match splitOnChar sep cs with
      | [] => [[c]]
      | t :: ts => (c :: t) :: ts

/-- Accumulator pass for splitWs; acc holds the current field reversed. -/
def splitWsAux : Str → Str → List Str
  | [], acc => if acc = [] then [] else [acc.reverse]
  | c :: cs, acc =>
    if pyIsSpace c then
      if acc = [] then splitWsAux cs [] else acc.reverse :: splitWsAux cs []
    else splitWsAux cs (c :: acc)

/-- Python str.split with no argument: split on whitespace runs, dropping
    empty fields. -/
def splitWs (s : Str) : List Str := splitWsAux s []

/-- Python sep.join. -/
def joinWith (sep : Str) : List Str → Str
  | [] => []
  | [s] => s
  | s :: t :: ts => s ++ sep ++ joinWith sep (t :: ts)

/-- Membership test for one Python string inside another
    (the Python expression: needle in haystack). -/
def containsSub (hay needle : Str) : Bool :=
  needle.isPrefixOf hay ||
    match hay with
    | [] => false
    | _ :: t => containsSub t needle

/-- Word character of the regex class backslash-w, ASCII fragment. -/
def isW (c : Char) : Bool := c.isAlphanum || c = '_'

/-- Decimal digits for rendering small naturals (Python str formatting of an
    int index).  Indexes in the models stay below ten thousand. -/
def digitChar : Nat → Char
  | 0 => '0' | 1 => '1' | 2 => '2' | 3 => '3' | 4 => '4'
  | 5 => '5' | 6 => '6' | 7 => '7' | 8 => '8' | _ => '9'

/-- Fuelled digit extraction for natStr; the fuel bounds the digit count. -/
def natStrAux : Nat → Nat → Str → Str
  | 0, _, acc => acc
  | fuel + 1, n, acc =>
    let acc2 := digitChar (n % 10) :: acc
    if n < 10 then acc2 else natStrAux fuel (n / 10) acc2

/-- Decimal rendering of a natural number, as Python str would produce. -/
def natStr (n : Nat) : Str := natStrAux (n + 1) n []

/-- Pass for firstDedup carrying the set of elements already emitted. -/
def firstDedupAux : List Str → List Str → List Str
  | [], _ => []
  | a :: l, seen =>
    if a ∈ seen then firstDedupAux l seen
    else a :: firstDedupAux l (a :: seen)

/-- Keep the first occurrence of every element, in order: the key order of a
    Python dict filled by repeated insertion. -/
def firstDedup (l : List Str) : List Str := firstDedupAux l []

/-- Python truthiness of an optional string valued dict entry: a missing key
    and an empty string are both falsy. -/
def truthy : Option Str → Option Str
  | none => none
  | some s => if s = [] then none else some s

/-- A match of the citation regex (backslash-[, one or more digits,
    backslash-]) starting at the head of the list. -/
def citeAt : Str → Bool
  | '[' :: rest =>
    (match rest with
     | c :: _ => c.isDigit
     | [] => false) &&
    (match rest.dropWhile Char.isDigit with
     | ']' :: _ => true
     | _ => false)
  | _ => false

/-- Whether re.search with the citation-marker pattern succeeds anywhere in
    the string: some position starts a bracketed run of digits. -/
def hasCite : Str → Bool
  | [] => false
  | c :: cs => citeAt (c :: cs) || hasCite cs

end PyStr

/-! ## app/services/rag/rrf_fusion.py -/

namespace RRF

open PyStr

/-- A retrieval result dict as consumed by RRFFusion.fuse: only the keys the
    function reads are modelled; a missing key is none. -/
structure Chunk where
  source_id : Option Str
  document_id : Option Str
  id : Option Str
  text : Str
deriving DecidableEq

/-- RRFFusion private method get_chunk_id: first truthy of source_id,
    document_id, id, else str(hash(text)).  The Python hash of the text is
    modelled by an injective stand-in tag, which only matters for chunks
    whose three id fields are all falsy. -/
def getChunkId (c : Chunk) : Str :=
  match truthy c.source_id with
  | some s => s
  | none =>
    match truthy c.document_id with
    | some s => s
    | none =>
      match truthy c.id with
      | some s => s
      | none => 'h' :: c.text

/-- Score dict read with default 0, as rrf_scores.get(chunk_id, 0). -/
def dictGet : List (Str × ℚ) → Str → ℚ
  | [], _ => 0
  | p :: d, k => if p.1 = k then p.2 else dictGet d k

/-- Score dict write; a Python dict keeps the insertion position of an
    existing key and appends a new key at the end. -/
def dictSet : List (Str × ℚ) → Str → ℚ → List (Str × ℚ)
  | [], k, v => [(k, v)]
  | p :: d, k, v => if p.1 = k then (k, v) :: d else p :: dictSet d k v

/-- One branch loop of fuse: for rank, chunk in enumerate(results), add
    weight / (k + rank) onto the accumulated score of the chunk id. -/
def addBranch (w kc : ℚ) : List Chunk → Nat → List (Str × ℚ) → List (Str × ℚ)
  | [], _, d => d
  | c :: cs, rank, d =>
    let cid := getChunkId c
    addBranch w kc cs (rank + 1) (dictSet d cid (dictGet d cid + w / (kc + rank)))

/-- The rrf_scores dict after both branch loops of fuse. -/
def rrfScores (dense bm25 : List Chunk) (kc dw bw : ℚ) : List (Str × ℚ) :=
  addBranch bw kc bm25 0 (addBranch dw kc dense 0 [])

/-- The chunk_map built by fuse: the dense loop overwrites on every hit, so a
    repeated dense id keeps its last dense chunk; the bm25 loop inserts only
    ids that are not present yet. -/
def chunkMapGet (dense bm25 : List Chunk) (cid : Str) : Option Chunk :=
  match (dense.filter (fun c => getChunkId c = cid)).getLast? with
  | some c => some c
  | none => bm25.find? (fun c => getChunkId c = cid)

/-- Closed-form per-branch contribution: the sum over the 0-based ranks at
    which the id occurs in the branch of weight / (k + rank). -/
def branchScore (w kc : ℚ) : List Chunk → Nat → Str → ℚ
  | [], _, _ => 0
  | c :: cs, rank, cid =>
    (if getChunkId c = cid then w / (kc + rank) else 0)
      + branchScore w kc cs (rank + 1) cid

/-- Closed-form fused score of an id over both branches. -/
def totalScore (dense bm25 : List Chunk) (kc dw bw : ℚ) (cid : Str) : ℚ :=
  branchScore dw kc dense 0 cid + branchScore bw kc bm25 0 cid

/-- Comparator of the fuse sort: sorted(ids, key=score, reverse=True) is a
    stable descending sort on the accumulated score. -/
def scoreGE (d : List (Str × ℚ)) (a b : Str) : Prop := dictGet d b ≤ dictGet d a

instance (d : List (Str × ℚ)) : DecidableRel (scoreGE d) := fun a b =>
  inferInstanceAs (Decidable (dictGet d b ≤ dictGet d a))

instance (d : List (Str × ℚ)) : IsTotal Str (scoreGE d) :=
  ⟨fun a b => (le_total (dictGet d b) (dictGet d a)).imp id id⟩

instance (d : List (Str × ℚ)) : IsTrans Str (scoreGE d) :=
  ⟨fun _ _ _ h1 h2 => le_trans h2 h1⟩

/-- The sorted_ids of fuse: dict keys in insertion order, stably sorted by
    descending RRF score. -/
def sortedIds (dense bm25 : List Chunk) (kc dw bw : ℚ) : List Str :=
  ((rrfScores dense bm25 kc dw bw).map Prod.fst).insertionSort
    (fun a b => scoreGE (rrfScores dense bm25 kc dw bw) a b)

/-- The fused result list of fuse before the completion log line: the top_k
    ids in score order, each resolved through chunk_map and paired with its
    attached rrf_score value. -/
def fusedList (dense bm25 : List Chunk) (kc dw bw : ℚ) (top_k : Nat) :
    List (Chunk × ℚ) :=
  ((sortedIds dense bm25 kc dw bw).take top_k).filterMap fun cid =>
    (chunkMapGet dense bm25 cid).map
      (fun c => (c, dictGet (rrfScores dense bm25 kc dw bw) cid))

/-- RRFFusion.fuse.  The final log line indexes fused_results[0], so a run
    that fuses to an empty list raises IndexError instead of returning;
    none models that exception. -/
def fuse (dense bm25 : List Chunk) (kc dw bw : ℚ) (top_k : Nat) :
    Option (List (Chunk × ℚ)) :=
  let fr := fusedList dense bm25 kc dw bw top_k
  if fr = [] then none else some fr

end RRF


namespace RRF

lemma dictGet_dictSet (d : List (Str × ℚ)) (k k2 : Str) (v : ℚ) :
    dictGet (dictSet d k v) k2 = if k = k2 then v else dictGet d k2 := by
  induction d with
  | nil => simp [dictGet, dictSet]
  | cons p d ih =>
    by_cases hp : p.1 = k
    · by_cases hq : k = k2 <;> simp [dictGet, dictSet, hp, hq]
    · by_cases hq : p.1 = k2
      · have h2 : ¬ k = k2 := fun hh => hp (hh ▸ hq)
        simp [dictGet, dictSet, hp, hq, h2, Ne.symm h2]
      · simp [dictGet, dictSet, hp, hq, ih]

lemma dictSet_ne_nil (d : List (Str × ℚ)) (k : Str) (v : ℚ) :
    dictSet d k v ≠ [] := by
  cases d with
  | nil => simp [dictSet]
  | cons p d => by_cases h : p.1 = k <;> simp [dictSet, h]

lemma keys_dictSet (d : List (Str × ℚ)) (k k2 : Str) (v : ℚ) :
    k2 ∈ (dictSet d k v).map Prod.fst → k2 = k ∨ k2 ∈ d.map Prod.fst := by
  induction d with
  | nil => simp [dictSet]
  | cons p d ih =>
    by_cases h : p.1 = k
    · simp only [dictSet, if_pos h, List.map_cons, List.mem_cons]
      rintro (rfl | hm)
      · exact Or.inl rfl
      · exact Or.inr (Or.inr hm)
    · simp only [dictSet, if_neg h, List.map_cons, List.mem_cons]
      rintro (rfl | hm)
      · exact Or.inr (Or.inl rfl)
      · rcases ih hm with h1 | h2
        · exact Or.inl h1
        · exact Or.inr (Or.inr h2)

lemma addBranch_get (w kc : ℚ) (l : List Chunk) (rank : Nat)
    (d : List (Str × ℚ)) (cid : Str) :
    dictGet (addBranch w kc l rank d) cid
      = dictGet d cid + branchScore w kc l rank cid := by
  induction l generalizing rank d with
  | nil => simp [addBranch, branchScore]
  | cons c cs ih =>
    simp only [addBranch, branchScore]
    rw [ih, dictGet_dictSet]
    by_cases h : getChunkId c = cid <;> simp [h] <;> ring

lemma addBranch_ne_nil (w kc : ℚ) (l : List Chunk) (rank : Nat)
    (d : List (Str × ℚ)) (h : d ≠ [] ∨ l ≠ []) :
    addBranch w kc l rank d ≠ [] := by
  induction l generalizing rank d with
  | nil =>
    rcases h with h | h
    · simpa [addBranch] using h
    · exact absurd rfl h
  | cons c cs ih =>
    simp only [addBranch]
    exact ih (rank + 1) _ (Or.inl (dictSet_ne_nil _ _ _))

lemma addBranch_keys (w kc : ℚ) (l : List Chunk) (rank : Nat)
    (d : List (Str × ℚ)) (cid : Str)
    (h : cid ∈ (addBranch w kc l rank d).map Prod.fst) :
    cid ∈ d.map Prod.fst ∨ ∃ c ∈ l, getChunkId c = cid := by
  induction l generalizing rank d with
  | nil => exact Or.inl (by simpa [addBranch] using h)
  | cons c cs ih =>
    simp only [addBranch] at h
    rcases ih _ _ h with h1 | h2
    · rcases keys_dictSet _ _ _ _ h1 with rfl | h3
      · exact Or.inr ⟨c, List.mem_cons_self _ _, rfl⟩
      · exact Or.inl h3
    · rcases h2 with ⟨c2, hc2, hid⟩
      exact Or.inr ⟨c2, List.mem_cons_of_mem _ hc2, hid⟩

lemma branchScore_nonneg (w kc : ℚ) (l : List Chunk) (rank : Nat) (cid : Str)
    (hw : 0 ≤ w) (hk : 0 ≤ kc) : 0 ≤ branchScore w kc l rank cid := by
  induction l generalizing rank with
  | nil => simp [branchScore]
  | cons c cs ih =>
    have hterm : (0:ℚ) ≤ w / (kc + rank) := div_nonneg hw (by positivity)
    have htail := ih (rank + 1)
    simp only [branchScore]
    split <;> linarith

lemma branchScore_ge_term (w kc : ℚ) (l : List Chunk) (rank r : Nat) (cid : Str)
    (hw : 0 ≤ w) (hk : 0 ≤ kc)
    (hr : (l.map getChunkId).get? r = some cid) :
    w / (kc + (rank + r : Nat)) ≤ branchScore w kc l rank cid := by
  induction l generalizing rank r with
  | nil => simp at hr
  | cons c cs ih =>
    cases r with
    | zero =>
      simp only [List.map_cons, List.get?] at hr
      have hc : getChunkId c = cid := by injection hr
      have htail := branchScore_nonneg w kc cs (rank + 1) cid hw hk
      simp only [branchScore, if_pos hc, Nat.add_zero]
      linarith
    | succ r2 =>
      simp only [List.map_cons, List.get?] at hr
      have h1 := ih (rank + 1) r2 hr
      have harith : (rank + 1) + r2 = rank + (r2 + 1) := by omega
      rw [harith] at h1
      have hterm : (0:ℚ) ≤ if getChunkId c = cid then w / (kc + rank) else 0 := by
        split
        · exact div_nonneg hw (by positivity)
        · exact le_refl 0
      simp only [branchScore]
      linarith

end RRF

/-- Transport of pairwise facts through filterMap, used to carry sortedness
    from the id list to the fused result list. -/
lemma pairwise_filterMap_of {α β : Type} (f : α → Option β)
    {R : α → α → Prop} {S : β → β → Prop}
    (hf : ∀ a b pa pb, R a b → f a = some pa → f b = some pb → S pa pb) :
    ∀ l : List α, l.Pairwise R → (l.filterMap f).Pairwise S := by
  intro l
  induction l with
  | nil => intro _; simp
  | cons a t ih =>
    intro h
    rw [List.pairwise_cons] at h
    cases hfa : f a with
    | none => simpa [List.filterMap_cons, hfa] using ih h.2
    | some pa =>
      simp only [List.filterMap_cons, hfa]
      refine List.Pairwise.cons ?_ (ih h.2)
      intro pb hpb
      obtain ⟨b, hb, hfb⟩ := List.mem_filterMap.mp hpb
      exact hf a b pa pb (h.1 b hb) hfa hfb

namespace RRF

lemma branchScore_of_count_zero (w kc : ℚ) (l : List Chunk) (rank : Nat)
    (cid : Str) (h : (l.map getChunkId).count cid = 0) :
    branchScore w kc l rank cid = 0 := by
  induction l generalizing rank with
  | nil => simp [branchScore]
  | cons c cs ih =>
    simp only [List.map_cons, List.count_cons] at h
    have h1 : (cs.map getChunkId).count cid = 0 := by omega
    have h2 : ¬ getChunkId c = cid := by
      intro hc
      simp [hc] at h
    simp [branchScore, h2, ih _ h1]

lemma branchScore_of_count_one (w kc : ℚ) (l : List Chunk) (rank r : Nat)
    (cid : Str) (h : (l.map getChunkId).count cid = 1)
    (hr : (l.map getChunkId).get? r = some cid) :
    branchScore w kc l rank cid = w / (kc + (rank + r : Nat)) := by
  induction l generalizing rank r with
  | nil => simp at hr
  | cons c cs ih =>
    cases r with
    | zero =>
      simp only [List.map_cons, List.get?] at hr
      have hc : getChunkId c = cid := by injection hr
      have h1 : (cs.map getChunkId).count cid = 0 := by
        rw [List.map_cons, List.count_cons, hc] at h
        simp at h
        omega
      simp [branchScore, hc, branchScore_of_count_zero _ _ _ _ _ h1]
    | succ r2 =>
      simp only [List.map_cons, List.get?] at hr
      have hmem : cid ∈ cs.map getChunkId := List.get?_mem hr
      have hcnt : 1 ≤ (cs.map getChunkId).count cid := List.count_pos_iff_mem.mpr hmem
      simp only [List.map_cons, List.count_cons] at h
      have h2 : ¬ getChunkId c = cid := by
        intro hc
        simp [hc] at h
        omega
      have h1 : (cs.map getChunkId).count cid = 1 := by
        by_cases hcc : getChunkId c = cid
        · exact absurd hcc h2
        · simpa [hcc] using h
      have := ih (rank + 1) r2 h1 hr
      have harith : (rank + 1) + r2 = rank + (r2 + 1) := by omega
      rw [harith] at this
      simp [branchScore, h2, this]

lemma chunkMapGet_id (dense bm25 : List Chunk) (cid : Str) (c : Chunk)
    (h : chunkMapGet dense bm25 cid = some c) : getChunkId c = cid := by
  unfold chunkMapGet at h
  cases hl : (dense.filter (fun x => getChunkId x = cid)).getLast? with
  | some c2 =>
    rw [hl] at h
    have h2 : c2 = c := by injection h
    have hmem : c2 ∈ dense.filter (fun x => getChunkId x = cid) :=
      List.mem_of_mem_getLast? (by simp [hl])
    have h3 : getChunkId c2 = cid := by simpa using (List.mem_filter.mp hmem).2
    rw [← h2]
    exact h3
  | none =>
    rw [hl] at h
    simpa using List.find?_some h

lemma chunkMapGet_isSome (dense bm25 : List Chunk) (cid : Str)
    (h : ∃ c, c ∈ dense ++ bm25 ∧ getChunkId c = cid) :
    ∃ c, chunkMapGet dense bm25 cid = some c := by
  obtain ⟨c, hc, hid⟩ := h
  rcases List.mem_append.mp hc with hd | hb
  · have hne : dense.filter (fun x => getChunkId x = cid) ≠ [] := by
      intro hnil
      have : c ∈ dense.filter (fun x => getChunkId x = cid) :=
        List.mem_filter.mpr ⟨hd, by simp [hid]⟩
      simp [hnil] at this
    have hsome : (dense.filter (fun x => getChunkId x = cid)).getLast?.isSome :=
      List.getLast?_isSome.mpr hne
    obtain ⟨c2, hc2⟩ := Option.isSome_iff_exists.mp hsome
    exact ⟨c2, by simp only [chunkMapGet, hc2]⟩
  · cases hl : (dense.filter (fun x => getChunkId x = cid)).getLast? with
    | some c2 => exact ⟨c2, by simp only [chunkMapGet, hl]⟩
    | none =>
      have hsome : (bm25.find? (fun x => getChunkId x = cid)).isSome := by
        rw [List.find?_isSome]
        exact ⟨c, hb, by simp [hid]⟩
      obtain ⟨c2, hc2⟩ := Option.isSome_iff_exists.mp hsome
      exact ⟨c2, by simp only [chunkMapGet, hl, hc2]⟩

end RRF

namespace RRF

lemma rrfScores_get (dense bm25 : List Chunk) (kc dw bw : ℚ) (cid : Str) :
    dictGet (rrfScores dense bm25 kc dw bw) cid
      = totalScore dense bm25 kc dw bw cid := by
  unfold rrfScores totalScore
  rw [addBranch_get, addBranch_get]
  simp [dictGet]

lemma sortedIds_sorted (dense bm25 : List Chunk) (kc dw bw : ℚ) :
    (sortedIds dense bm25 kc dw bw).Sorted
      (scoreGE (rrfScores dense bm25 kc dw bw)) :=
  List.sorted_insertionSort _ _

lemma mem_fusedList (dense bm25 : List Chunk) (kc dw bw : ℚ) (top_k : Nat)
    (p : Chunk × ℚ) (hp : p ∈ fusedList dense bm25 kc dw bw top_k) :
    p.2 = totalScore dense bm25 kc dw bw (getChunkId p.1) := by
  obtain ⟨cid, _, hf⟩ := List.mem_filterMap.mp hp
  obtain ⟨c, hc, hpe⟩ := Option.map_eq_some'.mp hf
  have hid : getChunkId c = cid := chunkMapGet_id _ _ _ _ hc
  rw [← hpe]
  simp only
  rw [hid, rrfScores_get]

/-- Chunks used by the concrete witnesses, mirroring the self-test block of
    rrf_fusion.py: ids A B C D from the dense branch, B E A F from BM25. -/
def sampleChunk (s : Str) : Chunk :=
  { source_id := some s, document_id := none, id := none, text := [] }

def denseSample : List Chunk :=
  [sampleChunk (str ("A")), sampleChunk (str ("B")),
   sampleChunk (str ("C")), sampleChunk (str ("D"))]

def bm25Sample : List Chunk :=
  [sampleChunk (str ("B")), sampleChunk (str ("E")),
   sampleChunk (str ("A")), sampleChunk (str ("F"))]

end RRF

/-- C1: RRF fusion gives every fused chunk the score
    sum over branches of weight / (k + rank) with 0-based ranks (first
    conjunct, with the per-branch sums written in closed form); the output
    score sequence is descending and the output has at most top_k entries;
    and with equal branch weights a chunk ranked rA in the dense branch and
    rB in the BM25 branch scores at least as high as any chunk that occurs
    exactly once across both branches, at rank rA or rB. -/
theorem rrf_fusion_C1 (dense bm25 : List RRF.Chunk) (kc dw bw : ℚ)
    (top_k : Nat) :
    (∀ p ∈ RRF.fusedList dense bm25 kc dw bw top_k,
        p.2 = RRF.totalScore dense bm25 kc dw bw (RRF.getChunkId p.1))
    ∧ ((RRF.fusedList dense bm25 kc dw bw top_k).map Prod.snd).Sorted
        (fun a b => b ≤ a)
    ∧ (RRF.fusedList dense bm25 kc dw bw top_k).length ≤ top_k
    ∧ (∀ w : ℚ, 0 ≤ w → 0 ≤ kc →
        ∀ rA rB r2 : Nat, ∀ id1 id2 : Str,
          (dense.map RRF.getChunkId).get? rA = some id1 →
          (bm25.map RRF.getChunkId).get? rB = some id1 →
          (r2 = rA ∨ r2 = rB) →
          (dense.map RRF.getChunkId).count id2
            + (bm25.map RRF.getChunkId).count id2 = 1 →
          ((dense.map RRF.getChunkId).get? r2 = some id2
            ∨ (bm25.map RRF.getChunkId).get? r2 = some id2) →
          RRF.totalScore dense bm25 kc w w id2
            ≤ RRF.totalScore dense bm25 kc w w id1) := by
  refine ⟨fun p hp => RRF.mem_fusedList dense bm25 kc dw bw top_k p hp, ?_, ?_, ?_⟩
  · have hpw : (RRF.fusedList dense bm25 kc dw bw top_k).Pairwise
        (fun p q : RRF.Chunk × ℚ => q.2 ≤ p.2) := by
      unfold RRF.fusedList
      refine pairwise_filterMap_of _
        (fun a b pa pb hr hfa hfb => ?_)
        ((RRF.sortedIds dense bm25 kc dw bw).take top_k)
        ((RRF.sortedIds_sorted dense bm25 kc dw bw).sublist
          (List.take_sublist _ _))
      obtain ⟨ca, hca, hpa⟩ := Option.map_eq_some'.mp hfa
      obtain ⟨cb, hcb, hpb⟩ := Option.map_eq_some'.mp hfb
      rw [← hpa, ← hpb]
      exact hr
    exact List.pairwise_map.mpr hpw
  · calc (RRF.fusedList dense bm25 kc dw bw top_k).length
        ≤ ((RRF.sortedIds dense bm25 kc dw bw).take top_k).length :=
          List.length_filterMap_le _ _
      _ ≤ top_k := List.length_take_le _ _
  · intro w hw hk rA rB r2 id1 id2 hA hB hr2 hcount hpos
    have hcd : (dense.map RRF.getChunkId).count id2 = 1
        ∨ (bm25.map RRF.getChunkId).count id2 = 1 := by
      rcases hpos with hp | hp
      · left
        have : id2 ∈ dense.map RRF.getChunkId := List.get?_mem hp
        have := List.count_pos_iff_mem.mpr this
        omega
      · right
        have : id2 ∈ bm25.map RRF.getChunkId := List.get?_mem hp
        have := List.count_pos_iff_mem.mpr this
        omega
    have hscore2 : RRF.totalScore dense bm25 kc w w id2 = w / (kc + (r2 : Nat)) := by
      unfold RRF.totalScore
      rcases hpos with hp | hp
      · have hd1 : (dense.map RRF.getChunkId).count id2 = 1 := by
          have : id2 ∈ dense.map RRF.getChunkId := List.get?_mem hp
          have := List.count_pos_iff_mem.mpr this
          omega
        have hb0 : (bm25.map RRF.getChunkId).count id2 = 0 := by omega
        rw [RRF.branchScore_of_count_one w kc dense 0 r2 id2 hd1 hp,
            RRF.branchScore_of_count_zero w kc bm25 0 id2 hb0]
        simp
      · have hb1 : (bm25.map RRF.getChunkId).count id2 = 1 := by
          have : id2 ∈ bm25.map RRF.getChunkId := List.get?_mem hp
          have := List.count_pos_iff_mem.mpr this
          omega
        have hd0 : (dense.map RRF.getChunkId).count id2 = 0 := by omega
        rw [RRF.branchScore_of_count_one w kc bm25 0 r2 id2 hb1 hp,
            RRF.branchScore_of_count_zero w kc dense 0 id2 hd0]
        simp
    have hA2 : w / (kc + (rA : Nat)) ≤ RRF.branchScore w kc dense 0 id1 := by
      have := RRF.branchScore_ge_term w kc dense 0 rA id1 hw hk hA
      simpa using this
    have hB2 : w / (kc + (rB : Nat)) ≤ RRF.branchScore w kc bm25 0 id1 := by
      have := RRF.branchScore_ge_term w kc bm25 0 rB id1 hw hk hB
      simpa using this
    have hnnA : (0:ℚ) ≤ w / (kc + (rA : Nat)) := div_nonneg hw (by positivity)
    have hnnB : (0:ℚ) ≤ w / (kc + (rB : Nat)) := div_nonneg hw (by positivity)
    rw [hscore2]
    unfold RRF.totalScore
    rcases hr2 with rfl | rfl
    · linarith
    · linarith

/-- Witness for C1 at the inputs of the module self-test: id A sits in both
    branches (dense rank 0, BM25 rank 2) and id C only in the dense branch at
    rank 2, so the fused score of C is at most that of A. -/
theorem rrf_fusion_C1_witness :
    RRF.totalScore RRF.denseSample RRF.bm25Sample 60 1 1 (str ("C"))
      ≤ RRF.totalScore RRF.denseSample RRF.bm25Sample 60 1 1 (str ("A")) :=
  ((rrf_fusion_C1 RRF.denseSample RRF.bm25Sample 60 1 1 5).2.2.2) 1
    (by norm_num) (by norm_num) 0 2 2 (str ("A")) (str ("C"))
    (by decide) (by decide) (Or.inr rfl) (by decide) (Or.inl (by decide))

/-- C10 counterexample: fuse with a non-empty dense branch still raises
    (models as none) when top_k is 0, because the completion log indexes the
    empty truncated fused list; the claim said fuse returns normally whenever
    at least one input list is non-empty. -/
theorem rrf_fuse_C10_counterexample :
    RRF.fuse [RRF.sampleChunk (str ("A"))] [] 60 1 1 0 = none
    ∧ [RRF.sampleChunk (str ("A"))] ≠ ([] : List RRF.Chunk) := by
  constructor
  · decide
  · simp

/-- C10 amended: fuse on two empty branches raises IndexError in its
    completion log (modelled as none) instead of returning an empty list;
    and it returns normally, with a non-empty fused list, whenever at least
    one input list is non-empty and top_k is at least 1. -/
theorem rrf_fuse_C10_amended (dense bm25 : List RRF.Chunk) (kc dw bw : ℚ)
    (top_k : Nat) :
    RRF.fuse [] [] kc dw bw top_k = none
    ∧ ((dense ≠ [] ∨ bm25 ≠ []) → 1 ≤ top_k →
        ∃ out, RRF.fuse dense bm25 kc dw bw top_k = some out ∧ out ≠ []) := by
  constructor
  · simp [RRF.fuse, RRF.fusedList, RRF.sortedIds, RRF.rrfScores, RRF.addBranch]
  · intro hne htop
    have hkeys : RRF.rrfScores dense bm25 kc dw bw ≠ [] := by
      unfold RRF.rrfScores
      rcases hne with hd | hb
      · exact RRF.addBranch_ne_nil _ _ _ _ _
          (Or.inl (RRF.addBranch_ne_nil _ _ _ _ _ (Or.inr hd)))
      · exact RRF.addBranch_ne_nil _ _ _ _ _ (Or.inr hb)
    have hids_ne : RRF.sortedIds dense bm25 kc dw bw ≠ [] := by
      unfold RRF.sortedIds
      intro hnil
      have hperm := List.perm_insertionSort
        (fun a b => RRF.scoreGE (RRF.rrfScores dense bm25 kc dw bw) a b)
        ((RRF.rrfScores dense bm25 kc dw bw).map Prod.fst)
      rw [hnil] at hperm
      have := hperm.symm.eq_nil
      exact hkeys (List.map_eq_nil.mp this)
    obtain ⟨cid, rest, heq⟩ := List.exists_cons_of_ne_nil hids_ne
    have hcid_mem : cid ∈ RRF.sortedIds dense bm25 kc dw bw := by
      rw [heq]; exact List.mem_cons_self _ _
    have hcid_keys : cid ∈ (RRF.rrfScores dense bm25 kc dw bw).map Prod.fst := by
      have hperm := List.perm_insertionSort
        (fun a b => RRF.scoreGE (RRF.rrfScores dense bm25 kc dw bw) a b)
        ((RRF.rrfScores dense bm25 kc dw bw).map Prod.fst)
      exact hperm.mem_iff.mp hcid_mem
    have hex : ∃ c, c ∈ dense ++ bm25 ∧ RRF.getChunkId c = cid := by
      unfold RRF.rrfScores at hcid_keys
      rcases RRF.addBranch_keys _ _ _ _ _ _ hcid_keys with h1 | h2
      · rcases RRF.addBranch_keys _ _ _ _ _ _ h1 with h3 | h4
        · simp at h3
        · obtain ⟨c, hc, hid⟩ := h4
          exact ⟨c, List.mem_append.mpr (Or.inl hc), hid⟩
      · obtain ⟨c, hc, hid⟩ := h2
        exact ⟨c, List.mem_append.mpr (Or.inr hc), hid⟩
    obtain ⟨c0, hc0⟩ := RRF.chunkMapGet_isSome dense bm25 cid hex
    obtain ⟨m, rfl⟩ := Nat.exists_eq_add_of_le htop
    have hfl : RRF.fusedList dense bm25 kc dw bw (1 + m)
        = (c0, RRF.dictGet (RRF.rrfScores dense bm25 kc dw bw) cid)
            :: (rest.take m).filterMap (fun cid2 =>
                  (RRF.chunkMapGet dense bm25 cid2).map
                    (fun c => (c, RRF.dictGet (RRF.rrfScores dense bm25 kc dw bw) cid2))) := by
      unfold RRF.fusedList
      rw [heq]
      rw [Nat.add_comm 1 m, List.take_succ_cons]
      simp [hc0]
    refine ⟨(c0, RRF.dictGet (RRF.rrfScores dense bm25 kc dw bw) cid)
        :: (rest.take m).filterMap (fun cid2 =>
              (RRF.chunkMapGet dense bm25 cid2).map
                (fun c => (c, RRF.dictGet (RRF.rrfScores dense bm25 kc dw bw) cid2))),
      ?_, ?_⟩
    · unfold RRF.fuse
      rw [hfl]
      simp
    · simp

/-- Witness for the amended C10 statement at concrete inputs: the default
    arguments raise on two empty lists, and the self-test inputs fuse to a
    non-empty result. -/
theorem rrf_fuse_C10_amended_witness :
    RRF.fuse [] [] 60 1 1 24 = none
    ∧ ∃ out, RRF.fuse RRF.denseSample RRF.bm25Sample 60 1 1 5 = some out
        ∧ out ≠ [] :=
  ⟨(rrf_fuse_C10_amended RRF.denseSample RRF.bm25Sample 60 1 1 24).1,
   (rrf_fuse_C10_amended RRF.denseSample RRF.bm25Sample 60 1 1 5).2
     (Or.inl (by decide)) (by norm_num)⟩

/-! ## app/services/rag/bm25_retriever.py -/

namespace BM

open PyStr

/-- Word-or-hyphen character: the regex class of backslash-w and hyphen used
    by the BM25 tokenizer pattern. -/
def isWH (c : Char) : Bool := isW c || c = '-'

/-- Strip hyphens from both ends of a candidate token. -/
def stripHyphens (s : Str) : Str :=
  ((s.dropWhile (fun c => c = '-')).reverse.dropWhile (fun c => c = '-')).reverse

/-- re.findall with the word-boundary pattern of backslash-b, one or more
    word-or-hyphen characters, backslash-b.  Scanning semantics derived from
    the regex engine: a match can only live inside a maximal run of
    word-or-hyphen characters; the leading boundary fails on leading hyphens
    (the char before them is never a word char at the start of a run), so the
    scan advances past them; the greedy repetition then takes the rest of the
    run and backtracks over trailing hyphens until the final boundary holds,
    that is, until the match ends in a word character.  A run of hyphens only
    yields no match.  So each maximal run contributes its hyphen-stripped core
    if that is non-empty, and nothing otherwise.  The accumulator holds the
    current run reversed. -/
def findallAux : Str → Str → List Str
  | [], acc =>
    let tok := stripHyphens acc.reverse
    if tok = [] then [] else [tok]
  | c :: cs, acc =>
    if isWH c then findallAux cs (c :: acc)
    else
      let tok := stripHyphens acc.reverse
      (if tok = [] then id else (tok :: ·)) (findallAux cs [])

def findallWH (s : Str) : List Str := findallAux s []

/-- BM25Retriever private method tokenize: lower-case, extract the
    word-boundary tokens of the pattern above, then drop 1-character tokens
    unless they are on the whitelist of unit tokens. -/
def tokenize (text : Str) : List Str :=
  (findallWH (lower text)).filter
    (fun t => t.length > 1 || t = (str ("g")) || t = (str ("%")))

/-- The scored query token list built by BM25Retriever.search: the tokenized
    query, then, when expansion terms are given, every expansion token
    repeated int(boost_expanded * 10) times. -/
def searchQueryTokens (query : Str) (expanded : List Str) (boost : ℚ) :
    List Str :=
  let query_tokens := tokenize query
  if expanded = [] then query_tokens
  else
    let expanded_tokens := (expanded.map tokenize).join
    query_tokens
      ++ expanded_tokens.bind (fun t => List.replicate (⌊boost * 10⌋).toNat t)

lemma mem_stripHyphens (s : Str) (c : Char) (h : c ∈ stripHyphens s) : c ∈ s := by
  unfold stripHyphens at h
  have h1 := List.mem_reverse.mp h
  have h2 := (List.dropWhile_sublist _).mem h1
  have h3 := List.mem_reverse.mp h2
  exact (List.dropWhile_sublist _).mem h3

lemma mem_findallAux_chars (s acc : Str) (t : Str)
    (hacc : ∀ c ∈ acc, isWH c = true)
    (ht : t ∈ findallAux s acc) : ∀ c ∈ t, isWH c = true := by
  induction s generalizing acc with
  | nil =>
    by_cases h : stripHyphens acc.reverse = [] <;>
      simp [findallAux, h] at ht
    subst ht
    intro c hc
    exact hacc c (List.mem_reverse.mp (mem_stripHyphens _ _ hc))
  | cons c2 cs ih =>
    by_cases h : isWH c2
    · simp only [findallAux, if_pos h] at ht
      refine ih (c2 :: acc) ?_ ht
      intro c hc
      rcases List.mem_cons.mp hc with rfl | hc
      · exact h
      · exact hacc c hc
    · simp only [findallAux, if_neg h] at ht
      by_cases h2 : stripHyphens acc.reverse = []
      · simp only [h2, if_pos rfl, id] at ht
        exact ih [] (by simp) ht
      · simp only [if_neg h2] at ht
        rcases List.mem_cons.mp ht with rfl | ht
        · intro c hc
          exact hacc c (List.mem_reverse.mp (mem_stripHyphens _ _ hc))
        · exact ih [] (by simp) ht

lemma percent_not_mem_tokenize (text : Str) : (str ("%")) ∉ tokenize text := by
  intro hmem
  have h1 : (str ("%")) ∈ findallWH (lower text) := (List.mem_filter.mp hmem).1
  have h2 := mem_findallAux_chars (lower text) [] (str ("%")) (by simp) h1
  have h3 : '%' ∈ (str ("%")) := by decide
  have := h2 '%' h3
  simp [isWH, isW] at this

end BM

/-- C9 counterexample: a text containing the percent sign does not yield a
    percent token; the token pattern admits only word characters and hyphens,
    so the whitelisted percent sign can never reach the length filter.  The
    claim said the input would yield a percent token. -/
theorem bm25_tokenize_C9_counterexample :
    BM.tokenize (str ("50 % of g")) = [str ("50"), str ("of"), str ("g")]
    ∧ (str ("%")) ∉ BM.tokenize (str ("50 % of g")) := by
  exact ⟨by decide, by decide⟩

/-- C9 amended: the tokenizer lower-cases and extracts word-boundary tokens,
    dropping tokens shorter than 2 characters unless whitelisted; of the two
    whitelisted unit tokens only the token g can actually survive, because
    the percent sign is outside the token character class and never appears
    in any token of any input. -/
theorem bm25_tokenize_C9_amended (text : Str) :
    (str ("%")) ∉ BM.tokenize text
    ∧ (∀ t ∈ BM.tokenize text, 2 ≤ t.length ∨ t = (str ("g")))
    ∧ BM.tokenize (str ("5 g")) = [str ("g")] := by
  refine ⟨BM.percent_not_mem_tokenize text, ?_, by decide⟩
  intro t ht
  have h2 := (List.mem_filter.mp ht).2
  simp only [Bool.or_eq_true, decide_eq_true_eq] at h2
  rcases h2 with (hlen | hg) | hpc
  · exact Or.inl hlen
  · exact Or.inr hg
  · rw [hpc] at ht
    exact absurd ht (BM.percent_not_mem_tokenize text)

/-- Witness for the amended C9 at a concrete input. -/
theorem bm25_tokenize_C9_amended_witness :
    (str ("%")) ∉ BM.tokenize (str ("50 % of g"))
    ∧ (2 ≤ (str ("50")).length ∨ (str ("50")) = (str ("g"))) :=
  ⟨(bm25_tokenize_C9_amended (str ("50 % of g"))).1,
   (bm25_tokenize_C9_amended (str ("50 % of g"))).2.1 (str ("50")) (by decide)⟩

/-- C6: with expansion weight 0.5, BM25Retriever.search repeats every
    expansion token int(0.5 * 10) = 5 times while each original query token
    occurs once, so expansion tokens carry five times the weight of original
    tokens rather than about half of it; the code contradicts its own
    comments, which promise 100 percent weight for the original query and
    the lower boost_expanded weight for expansions. -/
theorem bm25_search_C6_expansion_weight :
    BM.searchQueryTokens (str ("bone density")) [str ("skeletal")] (1/2)
      = [str ("bone"), str ("density"), str ("skeletal"), str ("skeletal"),
         str ("skeletal"), str ("skeletal"), str ("skeletal")]
    ∧ (BM.searchQueryTokens (str ("bone density")) [str ("skeletal")] (1/2)).count
        (str ("skeletal")) = 5
    ∧ (BM.searchQueryTokens (str ("bone density")) [str ("skeletal")] (1/2)).count
        (str ("bone")) = 1
    ∧ ¬ ((BM.searchQueryTokens (str ("bone density")) [str ("skeletal")] (1/2)).count
          (str ("skeletal"))
        ≤ (BM.searchQueryTokens (str ("bone density")) [str ("skeletal")] (1/2)).count
          (str ("bone"))) := by
  have hfloor : (⌊(1/2 : ℚ) * 10⌋).toNat = 5 := by
    have h5 : (⌊(1/2 : ℚ) * 10⌋) = 5 := by norm_num
    rw [h5]
    rfl
  refine ⟨?_, ?_, ?_, ?_⟩ <;> simp only [BM.searchQueryTokens, hfloor] <;> decide

/-! ## app/services/rag/pipeline_advanced.py, method estimate_grounding -/

namespace PIPE

open PyStr

/-- RAGPipeline private method estimate_grounding of the advanced pipeline:
    0 when the answer has no citation marker; otherwise the share of
    non-blank period-separated sentences containing a marker, capped at 1. -/
def estimateGrounding (answer : Str) : ℚ :=
  if hasCite answer then
    let sentences := ((splitOnChar '.' answer).map strip).filter (fun s => s ≠ [])
    if sentences = [] then 0
    else min ((sentences.countP hasCite : ℚ) / (sentences.length : ℚ)) 1
  else 0

/-- Modelled from the claim wording for comparison: the same ratio but with
    sentences split on period, exclamation mark and question mark. -/
def specGroundingPunct (answer : Str) : ℚ :=
  if hasCite answer then
    let pieces := ((splitOnChar '.' answer).bind (splitOnChar '!')).bind
      (splitOnChar '?')
    let sentences := (pieces.map strip).filter (fun s => s ≠ [])
    if sentences = [] then 0
    else min ((sentences.countP hasCite : ℚ) / (sentences.length : ℚ)) 1
  else 0

end PIPE

/-- C4 counterexample: on an answer with an exclamation sentence the code
    (which splits on periods only) returns 1, while the claimed splitting on
    period, exclamation mark and question mark would give one half. -/
theorem grounding_C4_counterexample :
    PIPE.estimateGrounding (str ("Yes [1]! No.")) = 1
    ∧ PIPE.specGroundingPunct (str ("Yes [1]! No.")) = 1/2
    ∧ (1 : ℚ) ≠ 1/2 := by
  refine ⟨?_, ?_, by norm_num⟩
  · have hs : (((PyStr.splitOnChar '.' (str ("Yes [1]! No."))).map PyStr.strip).filter
        (fun s => s ≠ [])) = [str ("Yes [1]! No")] := by decide
    simp only [PIPE.estimateGrounding, hs]
    rw [if_pos (by decide : PyStr.hasCite (str ("Yes [1]! No.")) = true)]
    rw [if_neg (by decide : ¬ ([str ("Yes [1]! No")] : List Str) = [])]
    have hc : ([str ("Yes [1]! No")].countP PyStr.hasCite) = 1 := by decide
    rw [hc]
    norm_num
  · have hs : (((((PyStr.splitOnChar '.' (str ("Yes [1]! No."))).bind
        (PyStr.splitOnChar '!')).bind (PyStr.splitOnChar '?')).map
          PyStr.strip).filter (fun s => s ≠ []))
        = [str ("Yes [1]"), str ("No")] := by decide
    simp only [PIPE.specGroundingPunct, hs]
    rw [if_pos (by decide : PyStr.hasCite (str ("Yes [1]! No.")) = true)]
    rw [if_neg (by decide : ¬ ([str ("Yes [1]"), str ("No")] : List Str) = [])]
    have hc : ([str ("Yes [1]"), str ("No")].countP PyStr.hasCite) = 1 := by decide
    rw [hc]
    norm_num

/-- C4 amended: grounded_ratio is the share of non-blank sentences containing
    a citation marker among the sentences obtained by splitting on periods
    only (not on exclamation or question marks), clamped to 1, and 0 when the
    answer has no marker; the worked example still yields two thirds. -/
theorem grounding_C4_amended (a : Str) :
    PIPE.estimateGrounding
      (str ("Bone loss occurs [1]. No citation here. Muscle atrophy is noted [2][3].")) = 2/3
    ∧ (PyStr.hasCite a = false → PIPE.estimateGrounding a = 0)
    ∧ 0 ≤ PIPE.estimateGrounding a ∧ PIPE.estimateGrounding a ≤ 1 := by
  refine ⟨?_, ?_, ?_, ?_⟩
  · have hs : (((PyStr.splitOnChar '.'
        (str ("Bone loss occurs [1]. No citation here. Muscle atrophy is noted [2][3]."))).map
          PyStr.strip).filter (fun s => s ≠ []))
        = [str ("Bone loss occurs [1]"), str ("No citation here"),
           str ("Muscle atrophy is noted [2][3]")] := by decide
    simp only [PIPE.estimateGrounding, hs]
    rw [if_pos (by decide : PyStr.hasCite
      (str ("Bone loss occurs [1]. No citation here. Muscle atrophy is noted [2][3].")) = true)]
    rw [if_neg (by decide : ¬ ([str ("Bone loss occurs [1]"), str ("No citation here"),
           str ("Muscle atrophy is noted [2][3]")] : List Str) = [])]
    have hc : ([str ("Bone loss occurs [1]"), str ("No citation here"),
           str ("Muscle atrophy is noted [2][3]")].countP PyStr.hasCite) = 2 := by decide
    rw [hc]
    norm_num
  · intro h
    simp [PIPE.estimateGrounding, h]
  · unfold PIPE.estimateGrounding
    split
    · dsimp only
      split
      · norm_num
      · refine le_min ?_ ?_
        · positivity
        · norm_num
    · norm_num
  · unfold PIPE.estimateGrounding
    split
    · dsimp only
      split
      · norm_num
      · exact min_le_right _ _
    · norm_num

/-- Witness for the amended C4 at a markerless answer. -/
theorem grounding_C4_amended_witness :
    PIPE.estimateGrounding (str ("No markers in this sentence.")) = 0 :=
  (grounding_C4_amended (str ("No markers in this sentence."))).2.1 (by decide)

/-! ## app/services/rag/context_builder.py -/

namespace CB

open PyStr

/-- A chunk dict as consumed by ContextBuilder.build_context; only the keys
    the method reads are modelled, a missing key is none.  Years are kept as
    the strings they are rendered to. -/
structure BChunk where
  title : Option Str
  year : Option Str
  osdr_id : Option Str
  sect : Str
  text : Str
  doi : Option Str
  source_id : Option Str
deriving DecidableEq

instance : Inhabited BChunk := ⟨⟨none, none, none, [], [], none, none⟩⟩

/-- Grouping key of group_by_paper: the doi if truthy, else the source_id
    read with default unknown (an empty source_id string is returned as is,
    because it is the last operand of the Python or-chain). -/
def paperKey (c : BChunk) : Str :=
  match truthy c.doi with
  | some d => d
  | none => c.source_id.getD (str ("unknown"))

/-- group_by_paper: a defaultdict filled in order, so the keys appear in
    first-occurrence order and each key holds its chunks in input order. -/
def groupByPaper (chunks : List BChunk) : List (Str × List BChunk) :=
  (firstDedup (chunks.map paperKey)).map
    (fun k => (k, chunks.filter (fun c => paperKey c = k)))

/-- The chunk body appended per chunk inside build_context. -/
def chunkText (c : BChunk) : Str :=
  str ("Section: ") ++ c.sect ++ str ("\n") ++ c.text ++ str ("\n\n")

/-- The per-paper header of build_context, built from the first chunk of the
    paper; falsy doi key and falsy osdr render as N/A. -/
def headerOf (idx : Nat) (key : Str) (first : BChunk) : Str :=
  str ("[") ++ natStr idx ++ str ("] ") ++ first.title.getD (str ("Unknown"))
    ++ str (" (") ++ first.year.getD [] ++ str (")\n")
    ++ str ("DOI: ") ++ (if key = [] then str ("N/A") else key)
    ++ str (" | OSDR: ")
    ++ (if first.osdr_id.getD [] = [] then str ("N/A") else first.osdr_id.getD [])
    ++ str ("\n")

/-- The inner chunk loop of build_context over one paper: each part is the
    pending header plus the chunk body; its token estimate is its length
    integer-divided by 4; when the estimate would push the running count over
    the budget the loop breaks (skipping the rest of this paper only); after
    a successful append the header is blanked. -/
def addPaper (maxT : Nat) : List BChunk → Str → Nat → (List Str × Nat)
  | [], _, tc => ([], tc)
  | c :: cs, header, tc =>
    let part := header ++ chunkText c
    let est := part.length / 4
    if maxT < tc + est then ([], tc)
    else
      let rest := addPaper maxT cs [] (tc + est)
      (part :: rest.1, rest.2)

/-- The outer paper loop of build_context: enumerate papers from 1, take at
    most 2 chunks per paper, and keep the running token count across papers.
    Groups produced by groupByPaper are never empty, so the default for the
    first chunk is never read. -/
def buildLoop (maxT : Nat) : List (Str × List BChunk) → Nat → Nat → (List Str × Nat)
  | [], _, tc => ([], tc)
  | (key, pcs) :: rest, idx, tc =>
    let header := headerOf idx key (pcs.headD default)
    let p1 := addPaper maxT (pcs.take 2) header tc
    let p2 := buildLoop maxT rest (idx + 1) p1.2
    (p1.1 ++ p2.1, p2.2)

/-- The context parts and final token count accumulated by build_context. -/
def buildParts (chunks : List BChunk) (maxT : Nat) : List Str × Nat :=
  buildLoop maxT (groupByPaper chunks) 1 0

/-- ContextBuilder.build_context: empty input gives the empty string, else
    the parts joined with the separator line. -/
def buildContext (chunks : List BChunk) (maxT : Nat) : Str :=
  if chunks = [] then []
  else joinWith (str ("\n---\n")) (buildParts chunks maxT).1

/-- The token estimate the code assigns to a list of parts: each part
    contributes its length integer-divided by 4. -/
def sumEst (ps : List Str) : Nat := (ps.map (fun p => p.length / 4)).sum

lemma addPaper_snd (maxT : Nat) (l : List BChunk) (header : Str) (tc : Nat) :
    (addPaper maxT l header tc).2 = tc + sumEst (addPaper maxT l header tc).1 := by
  induction l generalizing header tc with
  | nil => simp [addPaper, sumEst]
  | cons c cs ih =>
    simp only [addPaper]
    split
    · simp [sumEst]
    · simp only [sumEst, List.map_cons, List.sum_cons]
      have := ih [] (tc + (header ++ chunkText c).length / 4)
      simp only [sumEst] at this
      omega

lemma addPaper_le (maxT : Nat) (l : List BChunk) (header : Str) (tc : Nat)
    (h : tc ≤ maxT) : (addPaper maxT l header tc).2 ≤ maxT := by
  induction l generalizing header tc with
  | nil => simpa [addPaper]
  | cons c cs ih =>
    simp only [addPaper]
    split
    · simpa
    · exact ih [] _ (by omega)

lemma buildLoop_snd (maxT : Nat) (papers : List (Str × List BChunk))
    (idx tc : Nat) :
    (buildLoop maxT papers idx tc).2
      = tc + sumEst (buildLoop maxT papers idx tc).1 := by
  induction papers generalizing idx tc with
  | nil => simp [buildLoop, sumEst]
  | cons p rest ih =>
    obtain ⟨key, pcs⟩ := p
    simp only [buildLoop]
    have h1 := addPaper_snd maxT (pcs.take 2) (headerOf idx key (pcs.headD default)) tc
    have h2 := ih (idx + 1) (addPaper maxT (pcs.take 2) (headerOf idx key (pcs.headD default)) tc).2
    simp only [sumEst, List.map_append, List.sum_append] at h1 h2 ⊢
    omega

lemma buildLoop_le (maxT : Nat) (papers : List (Str × List BChunk))
    (idx tc : Nat) (h : tc ≤ maxT) :
    (buildLoop maxT papers idx tc).2 ≤ maxT := by
  induction papers generalizing idx tc with
  | nil => simpa [buildLoop]
  | cons p rest ih =>
    obtain ⟨key, pcs⟩ := p
    simp only [buildLoop]
    exact ih (idx + 1) _ (addPaper_le maxT _ _ tc h)

lemma addPaper_parts (maxT : Nat) (l : List BChunk) (header : Str) (tc : Nat) :
    ∀ p ∈ (addPaper maxT l header tc).1,
      ∃ h c, c ∈ l ∧ p = h ++ chunkText c := by
  induction l generalizing header tc with
  | nil => simp [addPaper]
  | cons c cs ih =>
    simp only [addPaper]
    split
    · simp
    · intro p hp
      rcases List.mem_cons.mp hp with rfl | hp
      · exact ⟨header, c, List.mem_cons_self _ _, rfl⟩
      · obtain ⟨h, c2, hc2, hpe⟩ := ih [] _ p hp
        exact ⟨h, c2, List.mem_cons_of_mem _ hc2, hpe⟩

lemma buildLoop_parts (maxT : Nat) (papers : List (Str × List BChunk))
    (idx tc : Nat) :
    ∀ p ∈ (buildLoop maxT papers idx tc).1,
      ∃ h c pcs key, (key, pcs) ∈ papers ∧ c ∈ pcs ∧ p = h ++ chunkText c := by
  induction papers generalizing idx tc with
  | nil => simp [buildLoop]
  | cons pr rest ih =>
    obtain ⟨key, pcs⟩ := pr
    simp only [buildLoop]
    intro p hp
    rcases List.mem_append.mp hp with hp | hp
    · obtain ⟨h, c, hc, hpe⟩ := addPaper_parts maxT _ _ _ p hp
      exact ⟨h, c, pcs, key, List.mem_cons_self _ _,
        (List.take_sublist 2 pcs).mem hc, hpe⟩
    · obtain ⟨h, c, pcs2, key2, hmem, hc, hpe⟩ := ih (idx + 1) _ p hp
      exact ⟨h, c, pcs2, key2, List.mem_cons_of_mem _ hmem, hc, hpe⟩

lemma buildContext_single_oversized (c : BChunk) (maxT : Nat)
    (h : maxT < (headerOf 1 (paperKey c) c ++ chunkText c).length / 4) :
    buildContext [c] maxT = [] := by
  have hgroup : groupByPaper [c] = [(paperKey c, [c])] := by
    simp [groupByPaper, firstDedup, firstDedupAux]
  unfold buildContext
  rw [if_neg (by simp)]
  unfold buildParts
  rw [hgroup]
  simp only [buildLoop, addPaper, List.take, List.headD]
  rw [if_pos (by simpa using h)]
  simp [joinWith, buildLoop]

/-- The oversized candidate of the worked example in the claim: a bare chunk
    whose text is 4000 characters. -/
def bigChunk : BChunk :=
  { title := none, year := none, osdr_id := none, sect := [],
    text := List.replicate 4000 'a', doi := none, source_id := none }

end CB

/-- C2 counterexample: a single candidate of 4000 characters of text with a
    budget of 100 tokens produces the empty context, because the budget check
    runs before every chunk including the first; the claim said the assembler
    still returns that candidate once. -/
theorem context_builder_C2_counterexample :
    CB.buildContext [CB.bigChunk] 100 = []
    ∧ CB.bigChunk.text.length = 4000 := by
  have htext : CB.bigChunk.text.length = 4000 := List.length_replicate 4000 'a'
  refine ⟨?_, htext⟩
  apply CB.buildContext_single_oversized
  have hhd : (CB.headerOf 1 (CB.paperKey CB.bigChunk) CB.bigChunk).length = 40 := by
    decide
  have hct : (CB.chunkText CB.bigChunk).length = 4012 := by
    unfold CB.chunkText
    simp only [List.length_append]
    have h1 : (str ("Section: ")).length = 9 := by decide
    have h2 : (str ("\n")).length = 1 := by decide
    have h3 : (str ("\n\n")).length = 2 := by decide
    have h4 : CB.bigChunk.text.length = 4000 := List.length_replicate 4000 'a'
    have h5 : CB.bigChunk.sect.length = 0 := by decide
    omega
  have hlen : (CB.headerOf 1 (CB.paperKey CB.bigChunk) CB.bigChunk
      ++ CB.chunkText CB.bigChunk).length = 4052 := by
    rw [List.length_append, hhd, hct]
  rw [hlen]
  norm_num

/-- C2 amended: the accumulated token estimate of the assembled parts never
    exceeds max_tokens; every emitted part is a whole header-plus-chunk-body
    of an input candidate (no mid-passage truncation); but the budget check
    runs before every chunk including the very first, so a single candidate
    whose first estimate alone exceeds max_tokens yields the empty context
    rather than being included once.  The break leaves only the current
    paper, so later papers may still be added. -/
theorem context_builder_C2_amended (chunks : List CB.BChunk) (maxT : Nat)
    (c : CB.BChunk) :
    CB.sumEst (CB.buildParts chunks maxT).1 ≤ maxT
    ∧ (∀ p ∈ (CB.buildParts chunks maxT).1,
        ∃ h c2, c2 ∈ chunks ∧ p = h ++ CB.chunkText c2)
    ∧ (maxT < (CB.headerOf 1 (CB.paperKey c) c ++ CB.chunkText c).length / 4 →
        CB.buildContext [c] maxT = []) := by
  refine ⟨?_, ?_, CB.buildContext_single_oversized c maxT⟩
  · have h1 := CB.buildLoop_snd maxT (CB.groupByPaper chunks) 1 0
    have h2 := CB.buildLoop_le maxT (CB.groupByPaper chunks) 1 0 (Nat.zero_le _)
    unfold CB.buildParts
    omega
  · intro p hp
    obtain ⟨h, c2, pcs, key, hmem, hc2, hpe⟩ :=
      CB.buildLoop_parts maxT (CB.groupByPaper chunks) 1 0 p hp
    refine ⟨h, c2, ?_, hpe⟩
    unfold CB.groupByPaper at hmem
    obtain ⟨k2, _, hk2⟩ := List.mem_map.mp hmem
    have : pcs = chunks.filter (fun x => CB.paperKey x = k2) := by
      injection hk2.symm
    rw [this] at hc2
    exact (List.filter_sublist chunks).mem hc2

/-- Witness for the amended C2: the 4000-character candidate with a budget of
    100 satisfies the oversize hypothesis and produces the empty context,
    while the budget invariant holds on the same input. -/
theorem context_builder_C2_amended_witness :
    CB.sumEst (CB.buildParts [CB.bigChunk] 100).1 ≤ 100
    ∧ CB.buildContext [CB.bigChunk] 100 = [] := by
  have hhd : (CB.headerOf 1 (CB.paperKey CB.bigChunk) CB.bigChunk).length = 40 := by
    decide
  have hct : (CB.chunkText CB.bigChunk).length = 4012 := by
    unfold CB.chunkText
    simp only [List.length_append]
    have h1 : (str ("Section: ")).length = 9 := by decide
    have h2 : (str ("\n")).length = 1 := by decide
    have h3 : (str ("\n\n")).length = 2 := by decide
    have h4 : CB.bigChunk.text.length = 4000 := List.length_replicate 4000 'a'
    have h5 : CB.bigChunk.sect.length = 0 := by decide
    omega
  refine ⟨(context_builder_C2_amended [CB.bigChunk] 100 CB.bigChunk).1,
    (context_builder_C2_amended [CB.bigChunk] 100 CB.bigChunk).2.2 ?_⟩
  rw [List.length_append, hhd, hct]
  norm_num

/-! ## app/services/rag/reranker.py -/

namespace AR

open PyStr

/-- Section priority mapping of reranker.py, in dict insertion order; the
    lookup takes the first key contained in the chunk section string. -/
def SECTION_PRIORITY : List (Str × ℚ) :=
  [(str ("abstract"), 10/100), (str ("results"), 10/100),
   (str ("discussion"), 7/100), (str ("conclusion"), 7/100),
   (str ("methods"), 3/100), (str ("introduction"), 3/100),
   (str ("materials and methods"), 3/100), (str ("background"), 2/100),
   (str ("appendix"), 0), (str ("references"), 0), (str ("supplementary"), 0)]

/-- Authority domain boosts of reranker.py, in dict insertion order. -/
def AUTHORITY_DOMAINS : List (Str × ℚ) :=
  [(str ("nasa.gov"), 7/100), (str ("nih.gov"), 5/100),
   (str ("nature.com"), 6/100), (str ("science.org"), 6/100),
   (str ("cell.com"), 5/100), (str ("plos.org"), 4/100),
   (str ("doi.org"), 2/100)]

/-- The multi-signal weights of reranker.py. -/
def W_sim : ℚ := 36/100
def W_bm25 : ℚ := 18/100
def W_keyword_overlap : ℚ := 14/100
def W_sec_boost : ℚ := 12/100
def W_recency : ℚ := 8/100
def W_authority : ℚ := 7/100
def W_length_fit : ℚ := 5/100
def W_duplicate_penalty : ℚ := -10/100

/-- A chunk dict as read by AdvancedReranker; string keys read with default
    empty string are plain strings, optional keys are options. -/
structure AChunk where
  score : ℚ
  bm25_score : ℚ
  sect : Str
  text : Str
  date : Option Str
  year : Option Str
  url : Str
  doi : Str
  source : Str
deriving DecidableEq

/-- The reranker state set in its constructor; the current calendar year
    enters as a parameter since the code reads the wall clock. -/
structure ARState where
  query : Str
  expanded_terms : List Str
  currentYear : Int

/-- The private tokenize of reranker.py: word-character runs of the lowered
    text (the regex word pattern with boundaries, ASCII fragment); the
    accumulator holds the current run reversed. -/
def wordRunsAux : Str → Str → List Str
  | [], acc => if acc = [] then [] else [acc.reverse]
  | c :: cs, acc =>
    if isW c then wordRunsAux cs (c :: acc)
    else if acc = [] then wordRunsAux cs []
    else acc.reverse :: wordRunsAux cs []

def tokenizeAR (text : Str) : List Str := wordRunsAux (lower text) []

/-- query_tokens of the constructor: the token set of the query. -/
def queryTokens (st : ARState) : Finset Str := (tokenizeAR st.query).toFinset

/-- expanded_tokens of the constructor: the token set of the expansion terms
    joined by spaces (the join order cannot merge tokens across terms, so
    the set does not depend on it). -/
def expandedTokens (st : ARState) : Finset Str :=
  (tokenizeAR (joinWith (str (" ")) st.expanded_terms)).toFinset

/-- First-match lookup used by the section boost and authority loops. -/
def lookupFirstSub (table : List (Str × ℚ)) (test : Str → Bool) : ℚ :=
  match table with
  | [] => 0
  | (k, b) :: rest => if test k then b else lookupFirstSub rest test

/-- Private section_boost: the first priority key contained in the lowered
    section string wins. -/
def sectionBoost (c : AChunk) : ℚ :=
  lookupFirstSub SECTION_PRIORITY (fun k => containsSub (lower c.sect) k)

/-- Private keyword_overlap: the capped share of query-plus-expansion tokens
    that occur in the chunk token set. -/
def keywordOverlap (st : ARState) (c : AChunk) : ℚ :=
  let chunk_tokens := (tokenizeAR (lower c.text)).toFinset
  let all_query_tokens := queryTokens st ∪ expandedTokens st
  if all_query_tokens = ∅ then 0
  else min 1 (((all_query_tokens ∩ chunk_tokens).card : ℚ)
      / (all_query_tokens.card : ℚ))

/-- Python int parsing used by the recency path; whitespace is stripped and
    an optional sign precedes the digits, anything else raises (none). -/
def natFromDigits (ds : Str) : Int :=
  ds.foldl (fun acc c => acc * 10 + (c.toNat - 48 : Int)) 0

def parsePyInt (s : Str) : Option Int :=
  match strip s with
  | [] => none
  | '-' :: ds =>
    if ds ≠ [] ∧ ds.all Char.isDigit then some (-(natFromDigits ds)) else none
  | '+' :: ds =>
    if ds ≠ [] ∧ ds.all Char.isDigit then some (natFromDigits ds) else none
  | ds =>
    if ds ≠ [] ∧ ds.all Char.isDigit then some (natFromDigits ds) else none

/-- Private recency_score: parse a year from the date or year field (the
    segment before a dash when one occurs), then band the age; parse errors
    and missing fields give 0. -/
def recencyScore (cy : Int) (c : AChunk) : ℚ :=
  let ds := match truthy c.date with
    | some s => some s
    | none => truthy c.year
  match ds with
  | none => 0
  | some s =>
    let y3 := if '-' ∈ s then parsePyInt ((splitOnChar '-' s).headD [])
              else parsePyInt s
    match y3 with
    | none => 0
    | some y =>
      let age := cy - y
      if age ≤ 2 then 5/100
      else if age ≤ 5 then 3/100
      else if age ≤ 10 then 1/100
      else 0

/-- Private authority_score: the first authority domain contained in the
    lowered url, doi or source wins. -/
def authorityScore (c : AChunk) : ℚ :=
  lookupFirstSub AUTHORITY_DOMAINS (fun dom =>
    containsSub (lower c.url) dom || containsSub (lower c.doi) dom
      || containsSub (lower c.source) dom)

/-- Private length_fit: banded by the character length of the text. -/
def lengthFit (c : AChunk) : ℚ :=
  let n := c.text.length
  if 300 ≤ n ∧ n ≤ 800 then 2/100
  else if (150 ≤ n ∧ n < 300) ∨ (800 < n ∧ n ≤ 1200) then 0
  else -2/100

/-- Whether another chunk counts as a near-duplicate of the token set ct:
    its token set is non-empty, the union is non-empty and the Jaccard
    similarity exceeds 0.95. -/
def isDupOf (ct : Finset Str) (other : AChunk) : Bool :=
  let ot := (tokenizeAR (lower other.text)).toFinset
  decide (ot ≠ ∅) &&
    (decide (0 < (ct ∪ ot).card) &&
     decide ((95/100 : ℚ) < ((ct ∩ ot).card : ℚ) / ((ct ∪ ot).card : ℚ)))

/-- Private duplicate_penalty: the chunk at position i is compared against
    every other chunk of the list (Python skips only the identical object);
    the first near-duplicate hit returns the penalty value. -/
def duplicatePenalty (c : AChunk) (all : List AChunk) (i : Nat) : ℚ :=
  let ct := (tokenizeAR (lower c.text)).toFinset
  if ct = ∅ then 0
  else if all.enum.any (fun p => decide (p.1 ≠ i) && isDupOf ct p.2)
    then -5/100 else 0

/-- Private calculate_final_score: the weighted sum of the eight signals;
    the raw similarity is renormalized only when it exceeds 1. -/
def calcFinalScore (st : ARState) (c : AChunk) (all : List AChunk) (i : Nat) : ℚ :=
  let sim := if 1 < c.score then (c.score + 1) / 2 else c.score
  let bm25 := min 1 (c.bm25_score / 10)
  let sec_boost := sectionBoost c
  let keyword_overlap := keywordOverlap st c
  let recency := recencyScore st.currentYear c
  let authority := authorityScore c
  let length_fit := lengthFit c
  let duplicate_penalty := duplicatePenalty c all i
  W_sim * sim + W_bm25 * bm25 + W_keyword_overlap * keyword_overlap
    + W_sec_boost * sec_boost + W_recency * recency + W_authority * authority
    + W_length_fit * length_fit + W_duplicate_penalty * duplicate_penalty

/-- The concrete reranker state and duplicated chunk of the C5 evaluation. -/
def dupState : ARState :=
  { query := str ("bone"), expanded_terms := [], currentYear := 2026 }

def dupChunk : AChunk :=
  { score := 0, bm25_score := 0, sect := [], text := str ("bone loss"),
    date := none, year := none, url := [], doi := [], source := [] }

end AR

/-- C5: with two identical 9-character chunks (query bone), the
    duplicate-penalty signal fires at Jaccard similarity 1 > 0.95, yet the
    final combined score of the duplicated chunk is 18/125 = 0.144, which is
    0.005 MORE than the 139/1000 = 0.139 the same chunk scores with no
    duplicate present: the signal value -0.05 times the weight -0.10 adds
    +0.005, so the final score is not strictly lower as the claim and the
    module docstring (penalize semantic duplicates) require. -/
theorem reranker_C5_duplicate_penalty :
    AR.duplicatePenalty AR.dupChunk [AR.dupChunk, AR.dupChunk] 0 = -5/100
    ∧ AR.calcFinalScore AR.dupState AR.dupChunk [AR.dupChunk, AR.dupChunk] 0
        = 18/125
    ∧ AR.calcFinalScore AR.dupState AR.dupChunk [AR.dupChunk] 0 = 139/1000
    ∧ ¬ (AR.calcFinalScore AR.dupState AR.dupChunk [AR.dupChunk, AR.dupChunk] 0
          < AR.calcFinalScore AR.dupState AR.dupChunk [AR.dupChunk] 0) := by
  have hdupof : AR.isDupOf ((AR.tokenizeAR (PyStr.lower AR.dupChunk.text)).toFinset)
      AR.dupChunk = true := by
    unfold AR.isDupOf
    dsimp only
    simp only [Bool.and_eq_true, decide_eq_true_eq]
    refine ⟨by decide, by decide, ?_⟩
    have h2 : (((AR.tokenizeAR (PyStr.lower AR.dupChunk.text)).toFinset
        ∪ (AR.tokenizeAR (PyStr.lower AR.dupChunk.text)).toFinset).card) = 2 := by
      decide
    have h3 : (((AR.tokenizeAR (PyStr.lower AR.dupChunk.text)).toFinset
        ∩ (AR.tokenizeAR (PyStr.lower AR.dupChunk.text)).toFinset).card) = 2 := by
      decide
    rw [h2, h3]
    norm_num
  have hdup2 : AR.duplicatePenalty AR.dupChunk [AR.dupChunk, AR.dupChunk] 0
      = -5/100 := by
    unfold AR.duplicatePenalty
    dsimp only
    rw [if_neg (by decide)]
    rw [if_pos]
    apply List.any_eq_true.mpr
    refine ⟨(1, AR.dupChunk), by decide, ?_⟩
    rw [Bool.and_eq_true, hdupof]
    exact ⟨by decide, rfl⟩
  have hdup1 : AR.duplicatePenalty AR.dupChunk [AR.dupChunk] 0 = 0 := by decide
  have hko : AR.keywordOverlap AR.dupState AR.dupChunk = 1 := by
    unfold AR.keywordOverlap
    dsimp only
    rw [if_neg (by decide)]
    have h1 : ((AR.queryTokens AR.dupState ∪ AR.expandedTokens AR.dupState)
        ∩ (AR.tokenizeAR (PyStr.lower AR.dupChunk.text)).toFinset).card = 1 := by
      decide
    have h2 : (AR.queryTokens AR.dupState ∪ AR.expandedTokens AR.dupState).card
        = 1 := by decide
    rw [h1, h2]
    norm_num
  have hsec : AR.sectionBoost AR.dupChunk = 0 := by decide
  have hauth : AR.authorityScore AR.dupChunk = 0 := by decide
  have hrec : AR.recencyScore AR.dupState.currentYear AR.dupChunk = 0 := by decide
  have hlf : AR.lengthFit AR.dupChunk = -2/100 := by
    unfold AR.lengthFit
    have hn : AR.dupChunk.text.length = 9 := by decide
    rw [hn]
    norm_num
  have hscore : AR.dupChunk.score = 0 := rfl
  have hbm : AR.dupChunk.bm25_score = 0 := rfl
  have heval2 : AR.calcFinalScore AR.dupState AR.dupChunk
      [AR.dupChunk, AR.dupChunk] 0 = 18/125 := by
    unfold AR.calcFinalScore
    dsimp only
    rw [hdup2, hko, hsec, hauth, hrec, hlf, hscore, hbm]
    norm_num [AR.W_sim, AR.W_bm25, AR.W_keyword_overlap, AR.W_sec_boost,
      AR.W_recency, AR.W_authority, AR.W_length_fit, AR.W_duplicate_penalty]
  have heval1 : AR.calcFinalScore AR.dupState AR.dupChunk [AR.dupChunk] 0
      = 139/1000 := by
    unfold AR.calcFinalScore
    dsimp only
    rw [hdup1, hko, hsec, hauth, hrec, hlf, hscore, hbm]
    norm_num [AR.W_sim, AR.W_bm25, AR.W_keyword_overlap, AR.W_sec_boost,
      AR.W_recency, AR.W_authority, AR.W_length_fit, AR.W_duplicate_penalty]
  refine ⟨hdup2, heval2, heval1, ?_⟩
  rw [heval2, heval1]
  norm_num

/-! ## app/services/rag/cross_encoder_reranker.py

The rational arithmetic of the Batteries core is sealed; reopening it lets
concrete score computations evaluate inside decidability checks. -/

section CrossEncoder

attribute [local semireducible] Rat.add Rat.mul Rat.sub Rat.inv

namespace CE

open PyStr

/-- Section boost weights of CrossEncoderReranker, in dict insertion order;
    the lookup is an exact match on the lowered section name. -/
def SECTION_BOOST : List (Str × ℚ) :=
  [(str ("abstract"), 10/100), (str ("results"), 10/100),
   (str ("discussion"), 7/100), (str ("conclusion"), 7/100),
   (str ("methods"), 3/100), (str ("introduction"), 3/100),
   (str ("intro"), 3/100)]

/-- Excluded section markers of CrossEncoderReranker. -/
def EXCLUDE_SECTIONS : List Str :=
  [str ("references"), str ("author"), str ("legal"), str ("disclaimer")]

/-- A chunk dict as consumed by CrossEncoderReranker.rerank; the two score
    fields are the keys the method attaches at the end. -/
structure CChunk where
  text : Str
  sect : Str
  doi : Option Str
  url : Option Str
  document_id : Option Str
  cross_encoder_score : ℚ
  rerank_position : Nat
deriving DecidableEq

/-- Exact-match dict lookup with default 0 for the section boost table. -/
def lookupEq : List (Str × ℚ) → Str → ℚ
  | [], _ => 0
  | (k, b) :: rest, s => if k = s then b else lookupEq rest s

/-- The boost applied to one chunk by apply_section_boost. -/
def boostOf (c : CChunk) : ℚ := lookupEq SECTION_BOOST (lower c.sect)

/-- Maximum of a numpy array modelled on a non-empty list (rerank returns
    early on empty input, so the default is never read). -/
def maxQ : List ℚ → ℚ
  | [] => 0
  | x :: xs => xs.foldl max x

def minQ : List ℚ → ℚ
  | [] => 0
  | x :: xs => xs.foldl min x

/-- The normalization step of rerank: min-max rescale only when the raw
    model scores exceed 1. -/
def normalizeScores (scores : List ℚ) : List ℚ :=
  if 1 < maxQ scores then
    scores.map (fun s => (s - minQ scores) / (maxQ scores - minQ scores))
  else scores

/-- apply_section_boost over parallel chunk and score arrays, modelled on the
    zipped lists (model scores come one per chunk). -/
def applySectionBoost (chunks : List CChunk) (scores : List ℚ) : List ℚ :=
  (chunks.zip scores).map (fun p =>
    if 0 < boostOf p.1 then p.2 + boostOf p.1 else p.2)

/-- is_excluded_section: any excluded marker contained in the lowered
    section name. -/
def isExcluded (c : CChunk) : Bool :=
  EXCLUDE_SECTIONS.any (fun e => containsSub (lower c.sect) e)

/-- The boosted, pre-filter scores rerank pairs with the chunks; this is the
    relevance score the claim says each survivor should carry. -/
def boostedScores (chunks : List CChunk) (scores : List ℚ) (applyBoost : Bool) :
    List ℚ :=
  if applyBoost then applySectionBoost chunks (normalizeScores scores)
  else normalizeScores scores

/-- max_similarity: largest whitespace-token Jaccard similarity between the
    chunk text and any selected chunk, skipping empty unions. -/
def maxSim (c : CChunk) (selected : List CChunk) : ℚ :=
  selected.foldl (fun m s =>
    let ta := (splitWs (lower c.text)).toFinset
    let tb := (splitWs (lower s.text)).toFinset
    if 0 < (ta ∪ tb).card
    then max m (((ta ∩ tb).card : ℚ) / ((ta ∪ tb).card : ℚ))
    else m) 0

/-- Python max with a key function keeps the first maximal element. -/
def firstMaxBy {α : Type} (f : α → ℚ) : List α → Option α
  | [] => none
  | x :: xs => some (xs.foldl (fun b p => if f b < f p then p else b) x)

/-- The MMR selection loop of apply_mmr: while fewer than top_k are selected
    and candidates remain, pick the first candidate maximising
    lambda * relevance - (1 - lambda) * max similarity to the selected, move
    it across, and repeat.  The fuel starts at the number of candidates; each
    round removes one, so it never runs out before the loop guard stops. -/
def mmrLoop (lam : ℚ) (top_k : Nat) :
    Nat → List (CChunk × ℚ) → List (CChunk × ℚ) → List (CChunk × ℚ)
  | 0, _, selected => selected
  | fuel + 1, remaining, selected =>
    if selected.length < top_k ∧ remaining ≠ [] then
      let mmrOf := fun (p : Nat × (CChunk × ℚ)) =>
        lam * p.2.2 - (1 - lam) * maxSim p.2.1 (selected.map Prod.fst)
      match firstMaxBy mmrOf remaining.enum with
      | none => selected
      | some (j, pair) =>
        mmrLoop lam top_k fuel (remaining.eraseIdx j) (selected ++ [pair])
    else selected

/-- apply_mmr: identity when no more candidates than top_k; otherwise seed
    the selection with the top-relevance candidate and run the loop. -/
def applyMMR (lam : ℚ) (top_k : Nat) (sorted : List (CChunk × ℚ)) :
    List (CChunk × ℚ) :=
  if sorted.length ≤ top_k then sorted
  else
    match sorted with
    | [] => []
    | c0 :: rest => mmrLoop lam top_k rest.length rest [c0]

/-- The document key of enforce_max_per_doc: doi, else url, else the raw
    document_id value (Python or-chain; a missing id gives the None key). -/
def docKey (c : CChunk) : Option Str :=
  match truthy c.doi with
  | some s => some s
  | none =>
    match truthy c.url with
    | some s => some s
    | none => c.document_id

/-- Count dict read with default 0 (the code first inserts the key with 0). -/
def cGet : List (Option Str × Nat) → Option Str → Nat
  | [], _ => 0
  | p :: d, k => if p.1 = k then p.2 else cGet d k

def cSet : List (Option Str × Nat) → Option Str → Nat → List (Option Str × Nat)
  | [], k, v => [(k, v)]
  | p :: d, k, v => if p.1 = k then (k, v) :: d else p :: cSet d k v

/-- enforce_max_per_doc: keep a chunk only while its document key is below
    the cap. -/
def enforceAux (mpd : Nat) : List CChunk → List (Option Str × Nat) → List CChunk
  | [], _ => []
  | c :: cs, counts =>
    let k := docKey c
    let n := cGet counts k
    if n < mpd then c :: enforceAux mpd cs (cSet counts k (n + 1))
    else enforceAux mpd cs (cSet counts k n)

def enforceMaxPerDoc (chunks : List CChunk) (mpd : Nat) : List CChunk :=
  enforceAux mpd chunks []

/-- Step 8 of rerank: attach scores_sorted[i] (0 beyond its length) and the
    1-based position to the i-th surviving chunk.  The index runs over the
    FILTERED final list while the scores still belong to the unfiltered
    sorted order. -/
def attach : List CChunk → List ℚ → Nat → List CChunk
  | [], _, _ => []
  | c :: cs, ss, i =>
    { c with cross_encoder_score := ss.getD i 0, rerank_position := i + 1 }
      :: attach cs ss (i + 1)

/-- CrossEncoderReranker.rerank, with the raw cross-encoder model outputs
    supplied as the scores parameter (the neural network is external).  The
    unstable numpy argsort is modelled by a stable descending sort; the two
    agree whenever the boosted scores are pairwise distinct. -/
def rerank (chunks : List CChunk) (scores : List ℚ) (top_k : Nat) (lam : ℚ)
    (mpd : Nat) (applyBoost : Bool) : List CChunk :=
  if chunks = [] then []
  else
    let scores2 := boostedScores chunks scores applyBoost
    let valid := (chunks.zip scores2).filter (fun p => !(isExcluded p.1))
    let sorted := valid.insertionSort (fun a b => b.2 ≤ a.2)
    let mmred := if lam < 1 then applyMMR lam top_k sorted else sorted
    let chunks_final := (enforceMaxPerDoc (mmred.map Prod.fst) mpd).take top_k
    attach chunks_final (mmred.map Prod.snd) 0

end CE

end CrossEncoder

section CrossEncoderProofs

attribute [local semireducible] Rat.add Rat.mul Rat.sub Rat.inv

namespace CE

lemma cGet_cSet (counts : List (Option Str × Nat)) (k k2 : Option Str) (v : Nat) :
    cGet (cSet counts k v) k2 = if k2 = k then v else cGet counts k2 := by
  induction counts with
  | nil =>
    by_cases h : k2 = k
    · simp [cGet, cSet, h]
    · simp [cGet, cSet, h, Ne.symm h]
  | cons p d ih =>
    by_cases hp : p.1 = k
    · by_cases hq : k = k2
      · simp [cGet, cSet, hp, hq]
      · simp [cGet, cSet, hp, hq, Ne.symm hq]
    · by_cases hq : p.1 = k2
      · have h2 : ¬ k = k2 := fun hh => hp (hh ▸ hq)
        simp [cGet, cSet, hp, hq, h2, Ne.symm h2]
      · simp [cGet, cSet, hp, hq, ih]

lemma enforceAux_countP (mpd : Nat) (key : Option Str) (l : List CChunk) :
    ∀ counts, cGet counts key ≤ mpd →
      (enforceAux mpd l counts).countP (fun c => docKey c = key)
        ≤ mpd - cGet counts key := by
  induction l with
  | nil => intro counts _; simp [enforceAux]
  | cons c cs ih =>
    intro counts hle
    simp only [enforceAux]
    by_cases hk : docKey c = key
    · rw [hk]
      by_cases hn : cGet counts key < mpd
      · rw [if_pos hn]
        rw [List.countP_cons]
        have h2 := ih (cSet counts key (cGet counts key + 1))
          (by rw [cGet_cSet]; simp; omega)
        rw [cGet_cSet] at h2
        simp at h2
        simp [hk]
        omega
      · rw [if_neg hn]
        have h2 := ih (cSet counts key (cGet counts key))
          (by rw [cGet_cSet]; simpa)
        rw [cGet_cSet] at h2
        simp at h2
        omega
    · have hne : ¬ key = docKey c := fun hh => hk hh.symm
      split
      · rw [List.countP_cons]
        have h2 := ih (cSet counts (docKey c) (cGet counts (docKey c) + 1))
          (by rw [cGet_cSet, if_neg hne]; exact hle)
        rw [cGet_cSet, if_neg hne] at h2
        simp [hk]
        omega
      · have h2 := ih (cSet counts (docKey c) (cGet counts (docKey c)))
          (by rw [cGet_cSet, if_neg hne]; exact hle)
        rw [cGet_cSet, if_neg hne] at h2
        exact h2

lemma enforceMaxPerDoc_countP (mpd : Nat) (key : Option Str) (l : List CChunk) :
    (enforceMaxPerDoc l mpd).countP (fun c => docKey c = key) ≤ mpd := by
  have h2 := enforceAux_countP mpd key l [] (by simp [cGet])
  simpa [enforceMaxPerDoc, cGet] using h2

lemma docKey_update (c : CChunk) (q : ℚ) (n : Nat) :
    docKey { c with cross_encoder_score := q, rerank_position := n }
      = docKey c := rfl

lemma attach_countP (key : Option Str) :
    ∀ (cs : List CChunk) (ss : List ℚ) (i : Nat),
      (attach cs ss i).countP (fun c => docKey c = key)
        = cs.countP (fun c => docKey c = key) := by
  intro cs
  induction cs with
  | nil => intro ss i; simp [attach]
  | cons c cs ih =>
    intro ss i
    simp only [attach, List.countP_cons, ih, docKey_update]

/-- The three counterexample chunks of C3: one document_id, three dois. -/
def cexD1 : CChunk :=
  { text := str ("t"), sect := [], doi := some (str ("x1")), url := none,
    document_id := some (str ("D")), cross_encoder_score := 0,
    rerank_position := 0 }

def cexD2 : CChunk := { cexD1 with doi := some (str ("x2")) }

def cexD3 : CChunk := { cexD1 with doi := some (str ("x3")) }

/-- The four chunks of the C7 evaluation: three of paper da, one of db. -/
def mkDoi (d : String) : CChunk :=
  { text := str ("t"), sect := [], doi := some (str d), url := none,
    document_id := none, cross_encoder_score := 0, rerank_position := 0 }

def mA1 : CChunk := mkDoi "da"
def mA2 : CChunk := mkDoi "da"
def mA3 : CChunk := mkDoi "da"
def mB : CChunk := mkDoi "db"

end CE

/-- C3 counterexample: three candidates sharing document_id D but carrying
    distinct dois all survive rerank with max_per_doc 2, because the cap is
    keyed on doi-or-url-or-document_id, not on document_id. -/
theorem ce_rerank_C3_counterexample :
    (CE.rerank [CE.cexD1, CE.cexD2, CE.cexD3] [9/10, 8/10, 7/10]
        10 (7/10) 2 true).countP
      (fun c => c.document_id = some (str ("D"))) = 3
    ∧ [CE.cexD1, CE.cexD2, CE.cexD3].countP
      (fun c => c.document_id = some (str ("D"))) = 3 := by
  exact ⟨by decide, by decide⟩

/-- C3 amended: for every input, every score vector and every document key
    (the doi when truthy, else the url, else the raw document_id), the output
    of rerank with max_per_doc = 2 holds at most 2 chunks with that key. -/
theorem ce_rerank_C3_amended (chunks : List CE.CChunk) (scores : List ℚ)
    (top_k : Nat) (lam : ℚ) (boost : Bool) (key : Option Str) :
    ((CE.rerank chunks scores top_k lam 2 boost).countP
      (fun c => CE.docKey c = key)) ≤ 2 := by
  unfold CE.rerank
  split
  · simp
  · dsimp only
    rw [CE.attach_countP]
    exact le_trans ((List.take_sublist _ _).countP_le _)
      (CE.enforceMaxPerDoc_countP 2 key _)

/-- C7: on four chunks (three of paper da, one of paper db) with distinct
    model scores and max_per_doc 2, the db survivor carries attached score
    7/10, the score of the dropped third da chunk, while its own boosted
    relevance score is 6/10; the attached 1-based positions are correct.
    The claim that every survivor carries its own boosted score fails
    because step 8 reads scores_sorted by position in the unfiltered order. -/
theorem ce_rerank_C7_score_misalignment :
    (CE.rerank [CE.mA1, CE.mA2, CE.mA3, CE.mB] [9/10, 8/10, 7/10, 6/10]
        10 (7/10) 2 true).map
      (fun c => (c.doi, c.cross_encoder_score, c.rerank_position))
      = [(some (str ("da")), 9/10, 1), (some (str ("da")), 8/10, 2),
         (some (str ("db")), 7/10, 3)]
    ∧ (CE.boostedScores [CE.mA1, CE.mA2, CE.mA3, CE.mB]
        [9/10, 8/10, 7/10, 6/10] true).getD 3 0 = 6/10
    ∧ ((7 : ℚ)/10 ≠ 6/10) := by
  exact ⟨by decide, by decide, by decide⟩

end CrossEncoderProofs

/-! ## app/services/rag/retriever.py with app/core/constants.py -/

section Retriever

attribute [local semireducible] Rat.add Rat.mul Rat.sub Rat.inv

namespace RET

open PyStr

/-- A chunk dict as returned by the vector store and enriched by retrieve;
    the last three fields are written by the re-ranking loop. -/
structure RChunk where
  sect : Str
  similarity : ℚ
  doi : Option Str
  final_score : ℚ
  base_similarity : ℚ
  section_boost : ℚ
deriving DecidableEq

/-- SECTION_PRIORITY of app/core/constants.py; the lookup is an exact,
    case-sensitive match with default 0. -/
def SECTION_PRIORITY : List (Str × Nat) :=
  [(str ("Results"), 4), (str ("Conclusion"), 3), (str ("Methods"), 2),
   (str ("Introduction"), 1), (str ("Abstract"), 0)]

def lookupEqNat : List (Str × Nat) → Str → Nat
  | [], _ => 0
  | (k, b) :: rest, s => if k = s then b else lookupEqNat rest s

def sectionPriority (s : Str) : Nat := lookupEqNat SECTION_PRIORITY s

/-- The re-ranking step of retrieve: final_score is the similarity plus
    0.025 per priority point; the original similarity and the boost are
    stored alongside. -/
def applyBoost (c : RChunk) : RChunk :=
  let boost : ℚ := (sectionPriority c.sect : ℚ) * (25/1000)
  { c with final_score := c.similarity + boost,
           base_similarity := c.similarity,
           section_boost := boost }

/-- The sort of retrieve: stable descending by final_score. -/
def sortDesc (l : List RChunk) : List RChunk :=
  l.insertionSort (fun a b => b.final_score ≤ a.final_score)

/-- The dedup loop of retrieve: skip a chunk whose truthy doi was already
    seen; chunks with falsy doi are always kept. -/
def dedupDoi : List RChunk → List Str → List RChunk
  | [], _ => []
  | c :: cs, seen =>
    match c.doi with
    | some d =>
      if d ≠ [] ∧ d ∈ seen then dedupDoi cs seen
      else if d ≠ [] then c :: dedupDoi cs (d :: seen)
      else c :: dedupDoi cs seen
    | none => c :: dedupDoi cs seen

/-- Retriever.retrieve after the external vector search: boost, sort, dedup
    by doi, return the first top_k. -/
def retrieveModel (chunks : List RChunk) (top_k : Nat) : List RChunk :=
  if chunks = [] then []
  else (dedupDoi (sortDesc (chunks.map applyBoost)) []).take top_k

instance : IsTotal RChunk (fun a b => b.final_score ≤ a.final_score) :=
  ⟨fun a b => (le_total b.final_score a.final_score).imp id id⟩

instance : IsTrans RChunk (fun a b => b.final_score ≤ a.final_score) :=
  ⟨fun _ _ _ h1 h2 => le_trans h2 h1⟩

lemma dedupDoi_sublist (l : List RChunk) :
    ∀ seen, List.Sublist (dedupDoi l seen) l := by
  induction l with
  | nil => intro seen; simp [dedupDoi]
  | cons c cs ih =>
    intro seen
    cases hdoi : c.doi with
    | some d =>
      simp only [dedupDoi, hdoi]
      by_cases h1 : d ≠ [] ∧ d ∈ seen
      · rw [if_pos h1]
        exact (ih seen).cons c
      · rw [if_neg h1]
        by_cases h2 : d ≠ []
        · rw [if_pos h2]
          exact (ih (d :: seen)).cons₂ c
        · rw [if_neg h2]
          exact (ih seen).cons₂ c
    | none =>
      simp only [dedupDoi, hdoi]
      exact (ih seen).cons₂ c

lemma dedupDoi_not_seen (l : List RChunk) (d : Str) :
    ∀ seen, d ∈ seen → d ≠ [] →
      ∀ c ∈ dedupDoi l seen, c.doi ≠ some d := by
  induction l with
  | nil => intro seen _ _ c hc; simp [dedupDoi] at hc
  | cons c2 cs ih =>
    intro seen hseen hne c hc
    cases hdoi : c2.doi with
    | some d2 =>
      simp only [dedupDoi, hdoi] at hc
      by_cases h1 : d2 ≠ [] ∧ d2 ∈ seen
      · rw [if_pos h1] at hc
        exact ih seen hseen hne c hc
      · rw [if_neg h1] at hc
        by_cases h2 : d2 ≠ []
        · rw [if_pos h2] at hc
          rcases List.mem_cons.mp hc with rfl | hc
          · rw [hdoi]
            intro heq
            injection heq with heq2
            exact (not_and.mp h1 h2) (heq2 ▸ hseen)
          · exact ih (d2 :: seen) (List.mem_cons_of_mem _ hseen) hne c hc
        · rw [if_neg h2] at hc
          rcases List.mem_cons.mp hc with rfl | hc
          · rw [hdoi]
            intro heq
            injection heq with heq2
            simp at h2
            exact hne (heq2 ▸ h2)
          · exact ih seen hseen hne c hc
    | none =>
      simp only [dedupDoi, hdoi] at hc
      rcases List.mem_cons.mp hc with rfl | hc
      · rw [hdoi]; simp
      · exact ih seen hseen hne c hc

lemma dedupDoi_pairwise (l : List RChunk) :
    ∀ seen, (dedupDoi l seen).Pairwise
      (fun a b => ∀ d : Str, a.doi = some d → d ≠ [] → b.doi ≠ some d) := by
  induction l with
  | nil => intro seen; simp [dedupDoi]
  | cons c2 cs ih =>
    intro seen
    cases hdoi : c2.doi with
    | some d2 =>
      simp only [dedupDoi, hdoi]
      by_cases h1 : d2 ≠ [] ∧ d2 ∈ seen
      · rw [if_pos h1]; exact ih seen
      · rw [if_neg h1]
        by_cases h2 : d2 ≠ []
        · rw [if_pos h2]
          refine List.Pairwise.cons ?_ (ih (d2 :: seen))
          intro b hb d hd hdne
          rw [hdoi] at hd
          injection hd with hd2
          rw [← hd2]
          rw [← hd2] at hdne
          exact dedupDoi_not_seen cs d2 _ (List.mem_cons_self _ _) hdne b hb
        · rw [if_neg h2]
          refine List.Pairwise.cons ?_ (ih seen)
          intro b hb d hd hdne
          rw [hdoi] at hd
          injection hd with hd2
          simp at h2
          exact absurd (hd2.symm.trans h2) hdne
    | none =>
      simp only [dedupDoi, hdoi]
      refine List.Pairwise.cons ?_ (ih seen)
      intro b hb d hd hdne
      rw [hdoi] at hd
      exact absurd hd (by simp)

lemma dedupDoi_first (l : List RChunk) (c : RChunk) (d : Str) :
    ∀ seen, c ∈ dedupDoi l seen → c.doi = some d → d ≠ [] → d ∉ seen →
      l.find? (fun x => x.doi = some d) = some c := by
  induction l with
  | nil => intro seen hc; simp [dedupDoi] at hc
  | cons c2 cs ih =>
    intro seen hc hdc hdne hdseen
    cases hdoi : c2.doi with
    | some d2 =>
      simp only [dedupDoi, hdoi] at hc
      by_cases h1 : d2 ≠ [] ∧ d2 ∈ seen
      · rw [if_pos h1] at hc
        have hne : d2 ≠ d := fun heq => hdseen (heq ▸ h1.2)
        rw [List.find?_cons_of_neg _ (by simp [hdoi, hne])]
        exact ih seen hc hdc hdne hdseen
      · rw [if_neg h1] at hc
        by_cases h2 : d2 ≠ []
        · rw [if_pos h2] at hc
          rcases List.mem_cons.mp hc with rfl | hc
          · have heq : d2 = d := by
              rw [hdoi] at hdc
              injection hdc
            rw [List.find?_cons_of_pos _ (by simp [hdoi, heq])]
          · have hne : d2 ≠ d := by
              intro heq
              subst heq
              exact dedupDoi_not_seen cs d2 _ (List.mem_cons_self _ _) hdne
                c hc hdc
            rw [List.find?_cons_of_neg _ (by simp [hdoi, hne])]
            refine ih (d2 :: seen) hc hdc hdne ?_
            simp only [List.mem_cons, not_or]
            exact ⟨Ne.symm hne, hdseen⟩
        · rw [if_neg h2] at hc
          simp at h2
          rcases List.mem_cons.mp hc with rfl | hc
          · rw [hdoi] at hdc
            injection hdc with hd2
            exact absurd hd2.symm (h2 ▸ hdne)
          · have hne : d2 ≠ d := fun heq => hdne (heq.symm.trans h2)
            rw [List.find?_cons_of_neg _ (by simp [hdoi, hne])]
            exact ih seen hc hdc hdne hdseen
    | none =>
      simp only [dedupDoi, hdoi] at hc
      rcases List.mem_cons.mp hc with rfl | hc
      · rw [hdoi] at hdc
        exact absurd hdc (by simp)
      · rw [List.find?_cons_of_neg _ (by simp [hdoi])]
        exact ih seen hc hdc hdne hdseen

end RET

namespace RET

/-- Chunks used by the C8 witness: two share a doi, one has none. -/
def w1 : RChunk :=
  { sect := str ("Results"), similarity := 1/2, doi := some (str ("d1")),
    final_score := 0, base_similarity := 0, section_boost := 0 }

def w2 : RChunk :=
  { sect := [], similarity := 55/100, doi := some (str ("d1")),
    final_score := 0, base_similarity := 0, section_boost := 0 }

def w3 : RChunk :=
  { sect := str ("Introduction"), similarity := 1/10, doi := none,
    final_score := 0, base_similarity := 0, section_boost := 0 }

end RET

/-- C8: for every vector-store result set, the Retriever output never holds
    two candidates with the same non-empty doi; every output candidate is an
    input chunk boosted so that its final score is its similarity plus 0.025
    per section-priority point (Results 4, Conclusion 3, Methods 2,
    Introduction 1, other 0); every kept candidate with a non-empty doi is
    the first chunk bearing that doi in the descending final-score order;
    the output is descending by final score; and it has at most top_k
    entries. -/
theorem retriever_C8 (chunks : List RET.RChunk) (top_k : Nat) :
    (RET.retrieveModel chunks top_k).Pairwise
        (fun a b => ∀ d : Str, a.doi = some d → d ≠ [] → b.doi ≠ some d)
    ∧ (∀ c ∈ RET.retrieveModel chunks top_k, ∃ c0 ∈ chunks,
        c = RET.applyBoost c0
        ∧ c.final_score = c0.similarity
            + (RET.sectionPriority c0.sect : ℚ) * (25/1000))
    ∧ (∀ c ∈ RET.retrieveModel chunks top_k, ∀ d : Str,
        c.doi = some d → d ≠ [] →
        (RET.sortDesc (chunks.map RET.applyBoost)).find?
          (fun x => x.doi = some d) = some c)
    ∧ (RET.retrieveModel chunks top_k).Sorted
        (fun a b => b.final_score ≤ a.final_score)
    ∧ (RET.retrieveModel chunks top_k).length ≤ top_k := by
  by_cases hnil : chunks = []
  · simp [RET.retrieveModel, hnil]
  · have hout : RET.retrieveModel chunks top_k
        = (RET.dedupDoi (RET.sortDesc (chunks.map RET.applyBoost)) []).take
            top_k := by
      simp [RET.retrieveModel, hnil]
    have hmem : ∀ c ∈ RET.retrieveModel chunks top_k,
        c ∈ RET.dedupDoi (RET.sortDesc (chunks.map RET.applyBoost)) [] := by
      intro c hc
      rw [hout] at hc
      exact (List.take_sublist _ _).mem hc
    refine ⟨?_, ?_, ?_, ?_, ?_⟩
    · rw [hout]
      exact (RET.dedupDoi_pairwise _ []).sublist (List.take_sublist _ _)
    · intro c hc
      have h1 := hmem c hc
      have h2 : c ∈ RET.sortDesc (chunks.map RET.applyBoost) :=
        (RET.dedupDoi_sublist _ []).mem h1
      have h3 : c ∈ chunks.map RET.applyBoost :=
        (List.perm_insertionSort _ _).mem_iff.mp h2
      obtain ⟨c0, hc0, hce⟩ := List.mem_map.mp h3
      refine ⟨c0, hc0, hce.symm, ?_⟩
      rw [← hce]
      simp [RET.applyBoost]
    · intro c hc d hd hdne
      exact RET.dedupDoi_first _ c d [] (hmem c hc) hd hdne (by simp)
    · rw [hout]
      exact ((List.sorted_insertionSort _ _).sublist
        ((List.take_sublist _ _).trans (RET.dedupDoi_sublist _ [])))
    · rw [hout]
      exact List.length_take_le _ _

/-- Witness for C8 at a concrete result set: two chunks share doi d1, the
    higher-scoring one survives and is the first d1 entry of the sorted
    order, and the output fits in top_k. -/
theorem retriever_C8_witness :
    (RET.retrieveModel [RET.w1, RET.w2, RET.w3] 8).length ≤ 8
    ∧ (RET.sortDesc ([RET.w1, RET.w2, RET.w3].map RET.applyBoost)).find?
        (fun x => x.doi = some (str ("d1"))) = some (RET.applyBoost RET.w1) :=
  ⟨(retriever_C8 [RET.w1, RET.w2, RET.w3] 8).2.2.2.2,
   (retriever_C8 [RET.w1, RET.w2, RET.w3] 8).2.2.1 (RET.applyBoost RET.w1)
     (by decide) (str ("d1")) (by decide) (by decide)⟩

end Retriever
